import Mathlib

/-!
Verification of the core composition loop of the `nado` 8-bit music
composition system (shallow embedding of the Python sources).

The embedding covers:
* the data model (`models/score.py`, `models/constraints.py`, `models/proposal.py`);
* the post-processor passes and overlap resolution (`agents/orchestrator.py`,
  `_apply_passes` / `_resolve_overlaps`);
* the constraint validator (`agents/pm_agent.py`, `validate_variant`,
  `_check_polyphony`, `quantize_velocity`);
* the auto-corrector (`agents/orchestrator.py`, `_auto_correct`);
* the per-bar commit step and composition loop (`agents/orchestrator.py`,
  `_compose_bar` / `compose`), with the candidate generation and ranking
  abstracted as an oracle that supplies the selected variant per bar;
* the evaluator metrics and scoring (`agents/researcher_agent.py`);
* the algorithmic fallback generator (`agents/musician_agent.py`), with the
  process-wide random source modelled as an explicit stream of draws.

Python machine floats are modelled by `ℚ` (for the score and style metrics,
whose arithmetic is exact on the rationals used) and by `ℝ` for the rhythm
entropy, which uses `math.log2`.  Python ints are modelled by `Int`.
Diagnostic message strings carried by violations are omitted: no control
flow inspects them.
-/

namespace Nado

/-- A note event, as in `models/score.py` (`NoteEvent`): a track id, MIDI
pitch, velocity, start step and duration in steps. -/
structure NoteEvent where
  track : String
  pitch : Int
  velocity : Int
  startStep : Int
  durSteps : Int
deriving DecidableEq, Repr

/-- Derived end step of an event (`NoteEvent.end_step`). -/
def NoteEvent.endStep (e : NoteEvent) : Int :=
  e.startStep + e.durSteps

/-- A proposal variant (`models/proposal.py`, `Variant`). -/
structure Variant where
  id : String
  tags : List String
  events : List NoteEvent
deriving DecidableEq, Repr

/-- Allowed pitch range for a track (`models/constraints.py`, `PitchRange`). -/
structure PitchRange where
  min : Int
  max : Int
deriving DecidableEq, Repr

/-- Hard constraints (`models/constraints.py`, `HardConstraints`).  The
`pitch_ranges` dict is modelled as an association list with distinct keys. -/
structure HardConstraints where
  requiredTracks : List String
  monophonicTracks : List String
  maxEventsPerBar : Nat
  pitchRanges : List (String × PitchRange)
  velocityLevels : List Int
deriving DecidableEq, Repr

/-- Soft constraints (`models/constraints.py`, `SoftConstraints`). -/
structure SoftConstraints where
  targetDensityPerBar : ℚ
  targetRepetition : ℚ
  preferStepGrid : Int
deriving DecidableEq, Repr

/-- The full constraint set (`models/constraints.py`, `ConstraintsV1`). -/
structure Constraints where
  hard : HardConstraints
  soft : SoftConstraints
deriving DecidableEq, Repr

/-- The default 8-bit constraint set (`ConstraintsV1.default_8bit`). -/
def Constraints.default8bit : Constraints where
  hard :=
    { requiredTracks := ["pulse1", "triangle", "noise"]
      monophonicTracks := ["pulse1", "pulse2", "triangle", "noise"]
      maxEventsPerBar := 32
      pitchRanges :=
        [("pulse1", ⟨48, 96⟩), ("pulse2", ⟨48, 96⟩),
         ("triangle", ⟨24, 60⟩), ("noise", ⟨0, 127⟩)]
      velocityLevels := [64, 100, 127] }
  soft :=
    { targetDensityPerBar := 8
      targetRepetition := 3 / 10
      preferStepGrid := 4 }

/-- Steps per bar of a score created by `Orchestrator.compose`:
`ScoreV1.create_empty` defaults to time signature 4/4 with 4 steps per beat,
so `resolution.steps_per_bar = 16`. -/
def stepsPerBar : Int := 16

/-! ### Stable sorting by start step

Python's `sorted(events, key=lambda e: e.start_step)` is a stable sort.  We
embed it as a stable insertion sort: an element is inserted after every
already-placed element with a strictly smaller key and after every
earlier-listed element with an equal key. -/

/-- Insert an event into a list sorted by `start_step`, after all elements
with a strictly smaller start (stable insertion). -/
def insertByStart (e : NoteEvent) : List NoteEvent → List NoteEvent
  | [] => [e]
  | x :: xs =>
    if x.startStep < e.startStep then x :: insertByStart e xs
    else e :: x :: xs

/-- Stable sort by `start_step`, as Python's `sorted(..., key=start_step)`. -/
def sortByStart (l : List NoteEvent) : List NoteEvent :=
  l.foldr insertByStart []

/-! ### Overlap resolution (`Orchestrator._resolve_overlaps`) -/

/-- One step of the left-to-right overlap scan for a monophonic track
(the loop body of `_resolve_overlaps`).  The accumulator holds the cleaned
events in reverse order, so its head is `cleaned[-1]`.  When the next event
starts before the current one ends, the current event is replaced by a copy
truncated to reach the next start — but only when the truncated duration is
positive; otherwise the current event is left as it is.  The next event is
always appended. -/
def monoScanStep : List NoteEvent → NoteEvent → List NoteEvent
  | [], e => [e]
  | last :: rest, e =>
    if last.endStep ≤ e.startStep then e :: last :: rest
    else
      let newDur := e.startStep - last.startStep
      if 0 < newDur then e :: { last with durSteps := newDur } :: rest
      else e :: last :: rest

/-- The overlap scan over a start-sorted event list of one monophonic track. -/
def monoScan (l : List NoteEvent) : List NoteEvent :=
  (l.foldl monoScanStep []).reverse

/-- The list of first occurrences of elements of `l`, in order of first
appearance — the key order of a Python dict built by insertion. -/
def firstKeys {α : Type} [DecidableEq α] (l : List α) : List α :=
  l.foldl (fun ks x => if x ∈ ks then ks else ks ++ [x]) []

/-- Track keys of an event list in order of first appearance, as the keys of
the `by_track` dict built by `_resolve_overlaps`. -/
def trackKeys (events : List NoteEvent) : List String :=
  firstKeys (events.map (·.track))

/-- Per-track overlap resolution (`Orchestrator._resolve_overlaps`): group
events by track preserving order, then for each monophonic track sort by
start step and run the overlap scan; other tracks pass through unchanged. -/
def resolveOverlaps (cons : Constraints) (events : List NoteEvent) : List NoteEvent :=
  (trackKeys events).flatMap fun t =>
    let te := events.filter (fun e => e.track = t)
    if t ∈ cons.hard.monophonicTracks then monoScan (sortByStart te) else te

/-! ### Velocity quantization and the post-processing passes -/

/-- Quantize a velocity to the nearest configured level
(`PMAgent.quantize_velocity`); Python's `min(levels, key=abs(x - v))`
returns the first level of minimal distance. -/
def quantizeVelocity (cons : Constraints) (v : Int) : Int :=
  match cons.hard.velocityLevels with
  | [] => v
  | x :: xs => xs.foldl (fun best y => if (y - v).natAbs < (best - v).natAbs then y else best) x

/-- The three post-processing passes (`Orchestrator._apply_passes`):
velocity quantization, minimum-duration enforcement, overlap resolution. -/
def applyPasses (cons : Constraints) (events : List NoteEvent) : List NoteEvent :=
  resolveOverlaps cons
    (events.map fun e =>
      { e with velocity := quantizeVelocity cons e.velocity, durSteps := max 1 e.durSteps })

/-! ### Constraint validation (`agents/pm_agent.py`) -/

/-- Violation severity (`ConstraintViolation.constraint_type`). -/
inductive Severity where
  | hard
  | soft
deriving DecidableEq, Repr

/-- Violation rule identifiers, the string tags used by `pm_agent.py`. -/
inductive Rule where
  | requiredTracks
  | windowBounds
  | pitchRange
  | velocityLevels
  | monophonic
  | maxEventsPerBar
deriving DecidableEq, Repr

/-- A constraint violation (`models/constraints.py`, `ConstraintViolation`);
the free-text `message` field is omitted. -/
structure Violation where
  severity : Severity
  rule : Rule
  track : Option String
  eventIndex : Option Nat
deriving DecidableEq, Repr

/-- A validation result (`models/constraints.py`, `ValidationResult`). -/
structure ValidationResult where
  isValid : Bool
  violations : List Violation
deriving DecidableEq, Repr

/-- The hard subset of a result's violations
(`ValidationResult.hard_violations`). -/
def ValidationResult.hardViolations (r : ValidationResult) : List Violation :=
  r.violations.filter fun v => v.severity = Severity.hard

/-- Consecutive overlapping pairs of a (start-sorted) event list: the pairs
`(current, next)` with `current.end_step > next.start_step` flagged by the
loop in `PMAgent._check_polyphony`. -/
def overlapPairs (l : List NoteEvent) : List (NoteEvent × NoteEvent) :=
  (l.zip l.tail).filter fun p => p.2.startStep < p.1.endStep

/-- Monophony check (`PMAgent._check_polyphony`): for each monophonic track,
sort that track's events by start step and emit one hard `monophonic`
violation per overlapping consecutive pair. -/
def checkPolyphony (cons : Constraints) (events : List NoteEvent) : List Violation :=
  cons.hard.monophonicTracks.flatMap fun t =>
    (overlapPairs (sortByStart (events.filter (fun e => e.track = t)))).map fun _ =>
      ⟨Severity.hard, Rule.monophonic, some t, none⟩

/-- The per-event checks of `PMAgent.validate_variant` for the event at
index `i`: window bounds (hard), pitch range (hard), velocity level (soft),
in the order the code emits them. -/
def eventViolations (cons : Constraints) (ws we : Int) (i : Nat) (e : NoteEvent) :
    List Violation :=
  (if e.startStep < ws ∨ we ≤ e.startStep then
    [⟨Severity.hard, Rule.windowBounds, none, some i⟩] else [])
  ++ (match cons.hard.pitchRanges.lookup e.track with
      | some pr =>
        if e.pitch < pr.min ∨ pr.max < e.pitch then
          [⟨Severity.hard, Rule.pitchRange, some e.track, some i⟩] else []
      | none => [])
  ++ (if e.velocity ∈ cons.hard.velocityLevels then []
      else [⟨Severity.soft, Rule.velocityLevels, none, some i⟩])

/-- The indexed per-event pass of `PMAgent.validate_variant`
(`for i, event in enumerate(variant.events)`), starting at index `i`. -/
def eventsViolations (cons : Constraints) (ws we : Int) : Nat → List NoteEvent → List Violation
  | _, [] => []
  | i, e :: es => eventViolations cons ws we i e ++ eventsViolations cons ws we (i + 1) es

/-- Variant validation (`PMAgent.validate_variant`): per-event window-bounds,
pitch-range and velocity checks followed by the monophony check; the result
is valid iff no hard violation was recorded. -/
def validateVariant (cons : Constraints) (v : Variant) (ws we : Int) : ValidationResult :=
  let vs := eventsViolations cons ws we 0 v.events ++ checkPolyphony cons v.events
  ⟨(vs.filter fun x => x.severity = Severity.hard).isEmpty, vs⟩

/-! ### Auto-correction (`Orchestrator._auto_correct`) -/

/-- Clamp a pitch into a configured range (`max(pr.min, min(pr.max, pitch))`). -/
def clampPitch (pr : PitchRange) (p : Int) : Int :=
  max pr.min (min pr.max p)

/-- The body of one correction of `_auto_correct` for a flagged event index:
look up the event and its track's configured range and clamp its pitch. -/
def applyCorrectionAt (cons : Constraints) (corrected : List NoteEvent) (i : Nat) :
    List NoteEvent :=
  match corrected[i]? with
  | some e =>
    match cons.hard.pitchRanges.lookup e.track with
    | some pr => corrected.set i { e with pitch := clampPitch pr e.pitch }
    | none => corrected
  | none => corrected

/-- Apply one correction from the loop of `_auto_correct`: a hard violation
with rule `pitch_range` and an event index clamps that event's pitch into its
track's configured range; every other violation is ignored. -/
def applyCorrection (cons : Constraints) (corrected : List NoteEvent) (v : Violation) :
    List NoteEvent :=
  if v.rule = Rule.pitchRange then
    match v.eventIndex with
    | some i => applyCorrectionAt cons corrected i
    | none => corrected
  else corrected

/-- All corrections of `_auto_correct`, folded over the hard violations. -/
def applyCorrections (cons : Constraints) (events : List NoteEvent)
    (validation : ValidationResult) : List NoteEvent :=
  validation.hardViolations.foldl (applyCorrection cons) events

/-- Auto-correction (`Orchestrator._auto_correct`): clamp the pitch of every
event flagged by a hard `pitch_range` violation, re-resolve overlaps, then
re-validate against the window `[min start_step, max start_step + 16]` of the
original events; return the corrected events exactly when re-validation is
valid.  On an empty event list the code never re-validates and returns
`None`. -/
def autoCorrect (cons : Constraints) (events : List NoteEvent)
    (validation : ValidationResult) : Option (List NoteEvent) :=
  let corrected := resolveOverlaps cons (applyCorrections cons events validation)
  match events with
  | [] => none
  | e :: es =>
    let minStep := es.foldl (fun m x => min m x.startStep) e.startStep
    let maxStep := es.foldl (fun m x => max m x.startStep) e.startStep + 16
    if (validateVariant cons ⟨"corrected", ["auto_corrected"], corrected⟩ minStep maxStep).isValid
    then some corrected
    else none

/-! ### The per-bar commit step and the composition loop
(`Orchestrator._compose_bar` / `Orchestrator.compose`)

Candidate generation and ranking (steps 1–3 of `_compose_bar`) are abstracted
by an oracle giving, per bar, the selected variant's events and the best
ranking's score; the embedding covers the passes, validation, commit and
bookkeeping (steps 4–6 and the returned `IterationResult`). -/

/-- Per-window iteration record (`orchestrator.py`, `IterationResult`);
the selected variant id is omitted. -/
structure IterationResult where
  barIndex : Nat
  scoreBeforePasses : ℚ
  scoreAfterValidation : ℚ
  eventsAdded : Nat
  passedValidation : Bool
deriving DecidableEq, Repr

/-- Outcome of one `_compose_bar` call: the events appended to the score
(empty when the window failed), whether the window counted as a validation
pass, and the recorded `IterationResult`. -/
structure BarOutcome where
  committed : List NoteEvent
  countedAsPass : Bool
  result : IterationResult
deriving DecidableEq, Repr

/-- The commit part of `Orchestrator._compose_bar`: post-process the selected
events, validate them against the bar's window, commit them if valid, else
attempt auto-correction and commit the corrected events if it succeeds;
record the iteration result from the *initial* validation verdict. -/
def composeBarStep (cons : Constraints) (barIdx : Nat) (selected : List NoteEvent)
    (rankScore : ℚ) : BarOutcome :=
  let ws : Int := stepsPerBar * barIdx
  let we : Int := ws + stepsPerBar
  let processed := applyPasses cons selected
  let validation := validateVariant cons ⟨"v", [], processed⟩ ws we
  let committed : List NoteEvent × Bool :=
    if validation.isValid then (processed, true)
    else
      match autoCorrect cons processed validation with
      | some corrected => (corrected, true)
      | none => ([], false)
  { committed := committed.1
    countedAsPass := committed.2
    result :=
      { barIndex := barIdx
        scoreBeforePasses := rankScore
        scoreAfterValidation := if validation.isValid then rankScore else 0
        eventsAdded := if validation.isValid then processed.length else 0
        passedValidation := validation.isValid } }

/-- Session state accumulated by `Orchestrator.compose`
(`CompositionSession`): the committed score events plus counters. -/
structure Session where
  events : List NoteEvent
  iterations : List IterationResult
  totalEvents : Nat
  validationPasses : Nat
  validationFailures : Nat
deriving DecidableEq, Repr

/-- The composition loop (`Orchestrator.compose`) over `n` bars, with the
generation/ranking of each bar abstracted by `oracle` (selected events and
best-ranking score per bar index). -/
def composeLoop (cons : Constraints) (oracle : Nat → List NoteEvent × ℚ) :
    Nat → Session
  | 0 => ⟨[], [], 0, 0, 0⟩
  | n + 1 =>
    let s := composeLoop cons oracle n
    let o := composeBarStep cons n (oracle n).1 (oracle n).2
    { events := s.events ++ o.committed
      iterations := s.iterations ++ [o.result]
      totalEvents := s.totalEvents + o.committed.length
      validationPasses := s.validationPasses + (if o.countedAsPass then 1 else 0)
      validationFailures := s.validationFailures + (if o.countedAsPass then 0 else 1) }

/-! ### Evaluator metrics and scoring (`agents/researcher_agent.py`) -/

/-- Pitch-repetition ratio (`ResearcherAgent._calculate_repetition`): the
number of repeated pitch occurrences (count − 1 summed over pitches occurring
more than once) divided by the event count, capped at 1; 0 for fewer than 2
events. -/
def calcRepetition (events : List NoteEvent) : ℚ :=
  if events.length < 2 then 0
  else
    let pitches := events.map (·.pitch)
    let repeated : Nat :=
      (firstKeys pitches).foldl
        (fun acc p => acc + (if 1 < pitches.count p then pitches.count p - 1 else 0)) 0
    min 1 ((repeated : ℚ) / (pitches.length : ℚ))

/-- Style-compliance metric (`ResearcherAgent._calculate_style_compliance`):
start at 1, penalize the fraction of events at a non-configured velocity
level and the fraction off the preferred step grid, penalize density
deviation from the per-step target, clamp to [0, 1]; 0.5 for no events. -/
def styleCompliance (cons : Constraints) (events : List NoteEvent) (ws we : Int) : ℚ :=
  match events with
  | [] => 1 / 2
  | _ =>
    let n : ℚ := events.length
    let invalidVel : Nat :=
      (events.filter fun e => ¬ e.velocity ∈ cons.hard.velocityLevels).length
    let s : ℚ := 1 - (if 0 < invalidVel then (1 / 10) * ((invalidVel : ℚ) / n) else 0)
    let offGrid : Nat :=
      (events.filter fun e => ¬ e.startStep % cons.soft.preferStepGrid = 0).length
    let s := s - (if 0 < offGrid then (1 / 20) * ((offGrid : ℚ) / n) else 0)
    let density : ℚ := n / ((we : ℚ) - (ws : ℚ))
    let target : ℚ := cons.soft.targetDensityPerBar / 16
    let s := s - (1 / 10) * min 1 |density - target|
    max 0 (min 1 s)

/-- Per-variant metric record (`models/critic_report.py`, `Metrics`), with
the float fields modelled over `ℚ`. -/
structure MetricsQ where
  density : ℚ
  repetition : ℚ
  rhythmEntropy : ℚ
  rangeViolations : Nat
  polyphonyViolations : Nat
  styleCompliance : ℚ
deriving DecidableEq, Repr

/-- Scalar variant score (`ResearcherAgent._calculate_score`): base 50,
violation penalties, style/repetition/entropy/density adjustments, a bonus
per distinct track used, clamped into [0, 100]. -/
def calcScore (cons : Constraints) (m : MetricsQ) (events : List NoteEvent) : ℚ :=
  let s : ℚ := 50
  let s := s - (m.rangeViolations : ℚ) * 10
  let s := s - (m.polyphonyViolations : ℚ) * 15
  let s := s + m.styleCompliance * 20
  let s :=
    if 2 / 10 ≤ m.repetition ∧ m.repetition ≤ 4 / 10 then s + 10
    else if 6 / 10 < m.repetition then s - 5
    else s
  let s := s + m.rhythmEntropy * 10
  let target := cons.soft.targetDensityPerBar / 16
  let s := if |m.density - target| < 2 / 10 then s + 5 else s
  let tracksUsed : Nat := (trackKeys events).length
  let s := s + (tracksUsed : ℚ) * 3
  max 0 (min 100 s)

/-- Rhythm entropy (`ResearcherAgent._calculate_rhythm_entropy`): the Shannon
entropy of the histogram of onsets taken modulo the window size, normalized
by `log2` of the event count (by 1 when there are fewer than 2 events);
0 for no events or a zero window.  Modelled over `ℝ` since the code uses
`math.log2`. -/
noncomputable def rhythmEntropy (events : List NoteEvent) (windowSize : Int) : ℝ :=
  if events = [] ∨ windowSize = 0 then 0
  else
    let onsets : List Int := events.map fun e => e.startStep % windowSize
    let total : Nat := onsets.length
    let H : ℝ :=
      ∑ x ∈ onsets.toFinset,
        -(((onsets.count x : ℝ) / (total : ℝ)) *
          Real.logb 2 ((onsets.count x : ℝ) / (total : ℝ)))
    let maxEntropy : ℝ := if 1 < total then Real.logb 2 (total : ℝ) else 1
    if 0 < maxEntropy then H / maxEntropy else 0

/-! ### The algorithmic fallback generator (`agents/musician_agent.py`)

The generator reads the process-wide unseeded `random` source via
`random.choice`.  We model that source as an explicit stream of draws: a
function from draw counter to natural number, with `choice` selecting the
element indexed by the draw modulo the list length and advancing the
counter. -/

/-- The process-wide random source: a stream of draws and the current draw
counter. -/
structure Rand where
  stream : Nat → Nat
  idx : Nat

/-- Model of `random.choice(l)`: pick the element indexed by the next draw
modulo the list length, advancing the counter.  (`random.choice` on the
lists used here, which are always nonempty.) -/
def Rand.choice {α : Type} [Inhabited α] (r : Rand) (l : List α) : α × Rand :=
  (l.getD (r.stream r.idx % l.length) default, ⟨r.stream, r.idx + 1⟩)

/-- Musical scales (`musician_agent.py`, `SCALES`). -/
def SCALES : List (String × List Int) :=
  [("C", [0, 2, 4, 5, 7, 9, 11]),
   ("Cm", [0, 2, 3, 5, 7, 8, 10]),
   ("C_penta", [0, 2, 4, 7, 9]),
   ("Cm_penta", [0, 3, 5, 7, 10])]

/-- Bass rhythm patterns (`musician_agent.py`, `BASS_PATTERNS`). -/
def BASS_PATTERNS : List (List Int) :=
  [[0, 4, 8, 12], [0, 8], [0, 4, 6, 8, 12, 14], [0, 2, 4, 6, 8, 10, 12, 14]]

/-- A proposal window (`models/proposal.py`, `Window`). -/
structure MWindow where
  barIndex : Nat
  startStep : Int
  endStep : Int
deriving DecidableEq, Repr

/-- The melody loop of `MusicianAgent._generate_melody`: walk the onset
grid, stopping (`break`) at the window end; pick a scale degree, an octave
offset and a velocity from the random source; clamp the pitch into
`[48, 96]` and cap the duration at the window end. -/
def melodyLoop (w : MWindow) (scale : List Int) :
    List Int → Rand → List NoteEvent × Rand
  | [], r => ([], r)
  | rel :: rest, r =>
    let step := w.startStep + rel
    if w.endStep ≤ step then ([], r)
    else
      let c1 := r.choice scale
      let c2 := c1.2.choice [0, 12]
      let pitch := max 48 (min 96 (60 + c1.1 + c2.1))
      let dur := min 4 (w.endStep - step)
      let c3 := c2.2.choice [64, 100, 127]
      let next := melodyLoop w scale rest c3.2
      (⟨"pulse1", pitch, c3.1, step, dur⟩ :: next.1, next.2)

/-- Melody generation (`MusicianAgent._generate_melody`): variant 0 uses the
quarter-note grid, variant 1 the eighth-note grid, any other variant the
syncopated grid. -/
def generateMelody (w : MWindow) (scale : List Int) (variantIndex : Nat) (r : Rand) :
    List NoteEvent × Rand :=
  let steps : List Int :=
    if variantIndex = 0 then [0, 4, 8, 12]
    else if variantIndex = 1 then [0, 2, 4, 6, 8, 10, 12, 14]
    else [0, 3, 6, 8, 11, 14]
  melodyLoop w scale steps r

/-- The bass loop of `MusicianAgent._generate_bass`: walk the pattern,
stopping at the window end; pick the root or the fifth of the scale, clamp
into `[24, 60]`, fixed velocity 100. -/
def bassLoop (w : MWindow) (scale : List Int) :
    List Int → Rand → List NoteEvent × Rand
  | [], r => ([], r)
  | rel :: rest, r =>
    let step := w.startStep + rel
    if w.endStep ≤ step then ([], r)
    else
      let root := scale.getD 0 0
      let fifth := if 4 < scale.length then scale.getD 4 0 else root
      let c1 := r.choice [root, fifth]
      let pitch := max 24 (min 60 (36 + c1.1))
      let dur := min 4 (w.endStep - step)
      let next := bassLoop w scale rest c1.2
      (⟨"triangle", pitch, 100, step, dur⟩ :: next.1, next.2)

/-- Bass generation (`MusicianAgent._generate_bass`): the pattern indexed by
the variant index modulo the pattern count. -/
def generateBass (w : MWindow) (scale : List Int) (variantIndex : Nat) (r : Rand) :
    List NoteEvent × Rand :=
  bassLoop w scale (BASS_PATTERNS.getD (variantIndex % BASS_PATTERNS.length) []) r

/-- Strict stable order used by `MusicianAgent._remove_overlaps`:
Python sorts by the key `(start_step, -velocity)`. -/
def drumBefore (a b : NoteEvent) : Prop :=
  a.startStep < b.startStep ∨ (a.startStep = b.startStep ∧ b.velocity < a.velocity)

instance (a b : NoteEvent) : Decidable (drumBefore a b) :=
  inferInstanceAs (Decidable (a.startStep < b.startStep ∨
    (a.startStep = b.startStep ∧ b.velocity < a.velocity)))

/-- Stable insertion for the `(start_step, -velocity)` key. -/
def insertByStartVel (e : NoteEvent) : List NoteEvent → List NoteEvent
  | [] => [e]
  | x :: xs =>
    if drumBefore x e then x :: insertByStartVel e xs
    else e :: x :: xs

/-- Stable sort by `(start_step, -velocity)`, as in `_remove_overlaps`. -/
def sortByStartVel (l : List NoteEvent) : List NoteEvent :=
  l.foldr insertByStartVel []

/-- The keep-first scan of `MusicianAgent._remove_overlaps`: walk the sorted
events keeping an event only when it starts at or after the end of the last
kept event; overlapping later events are dropped. -/
def keepScan : NoteEvent → List NoteEvent → List NoteEvent
  | _, [] => []
  | last, x :: xs =>
    if last.endStep ≤ x.startStep then x :: keepScan x xs
    else keepScan last xs

/-- Overlap removal of the drum generator (`MusicianAgent._remove_overlaps`):
sort by `(start_step, -velocity)` and keep the first event of each
overlapping run. -/
def removeOverlapsKeepFirst (events : List NoteEvent) : List NoteEvent :=
  match sortByStartVel events with
  | [] => []
  | e :: es => e :: keepScan e es

/-- Drum generation (`MusicianAgent._generate_drums`): fixed kick/snare
patterns, a hi-hat layer only for variant index > 0, followed by
`_remove_overlaps` since the noise channel is monophonic.  No random draws
are made. -/
def generateDrums (w : MWindow) (variantIndex : Nat) : List NoteEvent :=
  let place (pattern : List Int) (pitch vel dur : Int) : List NoteEvent :=
    (pattern.filter fun rel => w.startStep + rel < w.endStep).map fun rel =>
      ⟨"noise", pitch, vel, w.startStep + rel, dur⟩
  let kicks := place [0, 8] 36 127 2
  let snares := place [4, 12] 38 100 2
  let hihats := if 0 < variantIndex then place [0, 4, 8, 12] 42 64 1 else []
  removeOverlapsKeepFirst (kicks ++ snares ++ hihats)

/-- The algorithmic fallback composer (`MusicianAgent._compose_algorithmic`):
look up the scale for the score's key (default the C-pentatonic scale),
generate melody, bass and drums, and concatenate them into a variant tagged
by the variant index. -/
def composeAlgorithmic (key : String) (w : MWindow) (variantIndex : Nat) (r : Rand) :
    Variant × Rand :=
  let scale := (SCALES.lookup key).getD ((SCALES.lookup "C_penta").getD [0, 2, 4, 7, 9])
  let melody := generateMelody w scale variantIndex r
  let bass := generateBass w scale variantIndex melody.2
  let drums := generateDrums w variantIndex
  let tags :=
    ["algorithmic", "variant_" ++ toString variantIndex] ++
      (if variantIndex = 0 then ["conservative"]
       else if variantIndex = 1 then ["melodic"]
       else ["experimental"])
  (⟨"algo_v" ++ toString variantIndex, tags, melody.1 ++ bass.1 ++ drums⟩, bass.2)

/-! ### Spec-side definitions

The following definitions are written from the specification's words (not
from the code) and are compared with the embedded source functions in the
refinement theorems below. -/

/-- Non-overlap of two consecutive events on a monophonic track:
the first ends no later than the second starts. -/
def noOverlap (a b : NoteEvent) : Prop :=
  a.endStep ≤ b.startStep

instance (a b : NoteEvent) : Decidable (noOverlap a b) :=
  inferInstanceAs (Decidable (a.endStep ≤ b.startStep))

/-- Kernel-reducible decidability of the non-overlap chain. -/
instance chainNoOverlapDec : (a : NoteEvent) → (l : List NoteEvent) →
    Decidable (List.Chain noOverlap a l)
  | _, [] => isTrue List.Chain.nil
  | _, b :: l =>
    haveI : Decidable (List.Chain noOverlap b l) := chainNoOverlapDec b l
    decidable_of_decidable_of_iff List.chain_cons.symm

instance chainNoOverlapDec' : (l : List NoteEvent) → Decidable (List.Chain' noOverlap l)
  | [] => isTrue trivial
  | a :: l => inferInstanceAs (Decidable (List.Chain noOverlap a l))

/-- The overlap-resolution scan exactly as the specification words it: when
the next event starts before the current one ends, the current event is
shortened to reach the next start, and *dropped entirely* when the resulting
duration would be ≤ 0; the later event is never moved or dropped. -/
def monoScanDropStep : List NoteEvent → NoteEvent → List NoteEvent
  | [], e => [e]
  | last :: rest, e =>
    if last.endStep ≤ e.startStep then e :: last :: rest
    else
      let newDur := e.startStep - last.startStep
      if 0 < newDur then e :: { last with durSteps := newDur } :: rest
      else e :: rest

/-- The claimed per-track scan (drop variant), over a start-sorted list. -/
def monoScanDrop (l : List NoteEvent) : List NoteEvent :=
  (l.foldl monoScanDropStep []).reverse

/-- Overlap resolution as claimed by the specification: like
`resolveOverlaps` but dropping a current event whose truncated duration
would be ≤ 0. -/
def resolveOverlapsClaimed (cons : Constraints) (events : List NoteEvent) : List NoteEvent :=
  (trackKeys events).flatMap fun t =>
    let te := events.filter (fun e => e.track = t)
    if t ∈ cons.hard.monophonicTracks then monoScanDrop (sortByStart te) else te

/-- The non-duration fields of an event (track, pitch, velocity, start):
everything the overlap scan may not change. -/
def eventFields4 (e : NoteEvent) : String × Int × Int × Int :=
  (e.track, e.pitch, e.velocity, e.startStep)

/-- The random-independent shape of a generated event: its track, start
step and duration. -/
def eventShape (e : NoteEvent) : String × Int × Int :=
  (e.track, e.startStep, e.durSteps)

/-- The scalar score formula exactly as the specification words it:
clamped to [0, 100]: 50, minus 10 per range violation, minus 15 per
polyphony violation, plus 20 × style compliance, plus a flat +10 when
repetition lies in [0.2, 0.4] or −5 when repetition exceeds 0.6, plus
10 × rhythm entropy, plus +5 when the density is within 0.2 of the
configured target density (the per-bar target expressed per step), plus
3 × the number of distinct tracks used. -/
def scoreClaimC4 (cons : Constraints) (m : MetricsQ) (events : List NoteEvent) : ℚ :=
  min 100 (max 0
    (50 - 10 * (m.rangeViolations : ℚ) - 15 * (m.polyphonyViolations : ℚ)
      + 20 * m.styleCompliance
      + (if 2 / 10 ≤ m.repetition ∧ m.repetition ≤ 4 / 10 then 10 else 0)
      + (if 6 / 10 < m.repetition then -5 else 0)
      + 10 * m.rhythmEntropy
      + (if |m.density - cons.soft.targetDensityPerBar / 16| < 2 / 10 then 5 else 0)
      + 3 * (((events.map (·.track)).dedup).length : ℚ)))

/-! ### Concrete inputs used by example, witness and counterexample theorems -/

/-- A random stream that always draws 0. -/
def exRand0 : Rand := ⟨fun _ => 0, 0⟩

/-- A random stream that always draws 1. -/
def exRand1 : Rand := ⟨fun _ => 1, 0⟩

/-- The specification's window-16 example: two events on monophonic
`pulse1`, the second starting before the first ends. -/
def exPair : List NoteEvent :=
  [⟨"pulse1", 60, 100, 0, 8⟩, ⟨"pulse1", 62, 100, 4, 8⟩]

/-- Two events on monophonic `pulse1` with the same start step (the
truncated duration would be 0). -/
def exSameStart : List NoteEvent :=
  [⟨"pulse1", 60, 100, 0, 4⟩, ⟨"pulse1", 62, 100, 0, 4⟩]

/-- A generation oracle whose window-0 event crosses the bar boundary
(start 15, duration 8) and whose window-1 event starts at step 16. -/
def exCrossOracle : Nat → List NoteEvent × ℚ := fun n =>
  if n = 0 then ([⟨"pulse1", 60, 100, 15, 8⟩], 50)
  else ([⟨"pulse1", 60, 100, 16, 4⟩], 50)

/-- One `triangle` event whose pitch 120 exceeds the configured range
[24, 60] (the specification's auto-correction example). -/
def exOutOfRange : List NoteEvent :=
  [⟨"triangle", 120, 100, 0, 4⟩]

/-- An oracle that always proposes the out-of-range `triangle` event. -/
def exOutOfRangeOracle : Nat → List NoteEvent × ℚ := fun _ =>
  ([⟨"triangle", 120, 100, 0, 4⟩], 50)

/-- An oracle that always proposes one valid `pulse1` event. -/
def exValidOracle : Nat → List NoteEvent × ℚ := fun _ =>
  ([⟨"pulse1", 60, 100, 0, 4⟩], 50)

/-- One `pulse1` event starting far outside the window [0, 16). -/
def exOutOfWindow : List NoteEvent :=
  [⟨"pulse1", 60, 100, 100, 4⟩]

/-! ## Helper lemmas -/

theorem mem_insertByStart {x e : NoteEvent} :
    ∀ {l : List NoteEvent}, x ∈ insertByStart e l ↔ x = e ∨ x ∈ l := by
  intro l
  induction l with
  | nil => simp [insertByStart]
  | cons a l ih =>
    by_cases h : a.startStep < e.startStep
    · simp only [insertByStart, if_pos h, List.mem_cons, ih]
      tauto
    · simp only [insertByStart, if_neg h, List.mem_cons]

theorem sortByStart_perm (l : List NoteEvent) : List.Perm (sortByStart l) l := by
  induction l with
  | nil => exact List.Perm.refl _
  | cons a l ih =>
    have h : List.Perm (insertByStart a (sortByStart l)) (a :: sortByStart l) := by
      clear ih
      induction sortByStart l with
      | nil => exact List.Perm.refl _
      | cons b m ihm =>
        by_cases hb : b.startStep < a.startStep
        · simp only [insertByStart, if_pos hb]
          exact (ihm.cons b).trans (List.Perm.swap a b m)
        · simp only [insertByStart, if_neg hb]
          exact List.Perm.refl _
    exact h.trans (ih.cons a)

theorem mem_sortByStart {x : NoteEvent} {l : List NoteEvent} :
    x ∈ sortByStart l ↔ x ∈ l :=
  (sortByStart_perm l).mem_iff

theorem insertByStart_sorted {e : NoteEvent} {l : List NoteEvent}
    (h : l.Pairwise fun a b => a.startStep ≤ b.startStep) :
    (insertByStart e l).Pairwise fun a b => a.startStep ≤ b.startStep := by
  induction l with
  | nil => simp [insertByStart]
  | cons a l ih =>
    rcases List.pairwise_cons.mp h with ⟨ha, hl⟩
    by_cases hb : a.startStep < e.startStep
    · simp only [insertByStart, if_pos hb]
      refine List.pairwise_cons.mpr ⟨?_, ih hl⟩
      intro y hy
      rcases mem_insertByStart.mp hy with rfl | hy
      · exact le_of_lt hb
      · exact ha y hy
    · simp only [insertByStart, if_neg hb]
      refine List.pairwise_cons.mpr ⟨?_, h⟩
      intro y hy
      rcases List.mem_cons.mp hy with rfl | hy
      · exact le_of_not_lt hb
      · exact le_trans (le_of_not_lt hb) (ha y hy)

theorem sortByStart_sorted (l : List NoteEvent) :
    (sortByStart l).Pairwise fun a b => a.startStep ≤ b.startStep := by
  induction l with
  | nil => simp [sortByStart]
  | cons a l ih => exact insertByStart_sorted ih

theorem sortByStart_of_sorted :
    ∀ {l : List NoteEvent}, (l.Pairwise fun a b => a.startStep ≤ b.startStep) →
      sortByStart l = l := by
  intro l
  induction l with
  | nil => intro _; rfl
  | cons a l ih =>
    intro h
    rcases List.pairwise_cons.mp h with ⟨ha, hl⟩
    show insertByStart a (sortByStart l) = a :: l
    rw [ih hl]
    cases l with
    | nil => rfl
    | cons b m =>
      have : ¬ b.startStep < a.startStep := not_lt.mpr (ha b (List.mem_cons_self b m))
      simp [insertByStart, this]

theorem sortByStart_idem (l : List NoteEvent) :
    sortByStart (sortByStart l) = sortByStart l :=
  sortByStart_of_sorted (sortByStart_sorted l)

/-! Lemmas on `firstKeys`. -/

theorem mem_foldl_insKey {α : Type} [DecidableEq α] {y : α} :
    ∀ (l acc : List α),
      y ∈ l.foldl (fun ks x => if x ∈ ks then ks else ks ++ [x]) acc ↔ y ∈ acc ∨ y ∈ l := by
  intro l
  induction l with
  | nil => simp
  | cons a l ih =>
    intro acc
    show y ∈ l.foldl _ (if a ∈ acc then acc else acc ++ [a]) ↔ _
    rw [ih]
    by_cases h : a ∈ acc
    · simp only [if_pos h, List.mem_cons]
      constructor
      · rintro (hy | hy)
        · exact Or.inl hy
        · exact Or.inr (Or.inr hy)
      · rintro (hy | rfl | hy)
        · exact Or.inl hy
        · exact Or.inl h
        · exact Or.inr hy
    · simp only [if_neg h, List.mem_append, List.mem_singleton, List.mem_cons]
      tauto

theorem mem_firstKeys {α : Type} [DecidableEq α] {y : α} {l : List α} :
    y ∈ firstKeys l ↔ y ∈ l := by
  unfold firstKeys
  rw [mem_foldl_insKey]
  simp

theorem nodup_foldl_insKey {α : Type} [DecidableEq α] :
    ∀ (l acc : List α), acc.Nodup →
      (l.foldl (fun ks x => if x ∈ ks then ks else ks ++ [x]) acc).Nodup := by
  intro l
  induction l with
  | nil => intro acc h; exact h
  | cons a l ih =>
    intro acc h
    show (l.foldl _ (if a ∈ acc then acc else acc ++ [a])).Nodup
    by_cases ha : a ∈ acc
    · rw [if_pos ha]; exact ih acc h
    · rw [if_neg ha]
      refine ih _ (List.Nodup.append h (List.nodup_singleton a) ?_)
      intro y hy hy'
      rw [List.mem_singleton] at hy'
      exact ha (hy' ▸ hy)

theorem firstKeys_nodup {α : Type} [DecidableEq α] (l : List α) :
    (firstKeys l).Nodup :=
  nodup_foldl_insKey l [] List.nodup_nil

theorem mem_trackKeys {t : String} {events : List NoteEvent} :
    t ∈ trackKeys events ↔ ∃ e ∈ events, e.track = t := by
  unfold trackKeys
  rw [mem_firstKeys, List.mem_map]

/-! Lemmas on the overlap scan `monoScan`. -/

theorem monoScanStep_map4 (acc : List NoteEvent) (e : NoteEvent) :
    (monoScanStep acc e).map eventFields4 = eventFields4 e :: acc.map eventFields4 := by
  cases acc with
  | nil => rfl
  | cons last rest =>
    show (if last.endStep ≤ e.startStep then e :: last :: rest
      else
        let newDur := e.startStep - last.startStep
        if 0 < newDur then e :: { last with durSteps := newDur } :: rest
        else e :: last :: rest).map eventFields4 = _
    by_cases h : last.endStep ≤ e.startStep
    · rw [if_pos h]; rfl
    · rw [if_neg h]
      show (if 0 < e.startStep - last.startStep
          then e :: { last with durSteps := e.startStep - last.startStep } :: rest
          else e :: last :: rest).map eventFields4 = _
      by_cases h2 : (0 : Int) < e.startStep - last.startStep
      · rw [if_pos h2]; rfl
      · rw [if_neg h2]; rfl

theorem foldl_monoScanStep_map4 :
    ∀ (l acc : List NoteEvent),
      (l.foldl monoScanStep acc).map eventFields4 =
        l.reverse.map eventFields4 ++ acc.map eventFields4 := by
  intro l
  induction l with
  | nil => intro acc; simp
  | cons e l ih =>
    intro acc
    show ((l.foldl monoScanStep (monoScanStep acc e)).map eventFields4) = _
    rw [ih, monoScanStep_map4]
    simp

theorem monoScan_map4 (l : List NoteEvent) :
    (monoScan l).map eventFields4 = l.map eventFields4 := by
  unfold monoScan
  rw [List.map_reverse, foldl_monoScanStep_map4]
  simp

theorem monoScan_length (l : List NoteEvent) : (monoScan l).length = l.length := by
  have h := congrArg List.length (monoScan_map4 l)
  simpa using h

theorem monoScan_track {t : String} {l : List NoteEvent}
    (h : ∀ e ∈ l, e.track = t) : ∀ e ∈ monoScan l, e.track = t := by
  intro e he
  have h4 : eventFields4 e ∈ (monoScan l).map eventFields4 := List.mem_map_of_mem _ he
  rw [monoScan_map4] at h4
  rcases List.mem_map.mp h4 with ⟨e', he', heq⟩
  have : e.track = e'.track := congrArg (fun q => q.1) heq.symm
  rw [this]
  exact h e' he'

theorem foldl_monoScanStep_of_chain :
    ∀ (l : List NoteEvent) (last : NoteEvent) (rest : List NoteEvent),
      List.Chain noOverlap last l →
        l.foldl monoScanStep (last :: rest) = l.reverse ++ last :: rest := by
  intro l
  induction l with
  | nil => intro last rest _; rfl
  | cons e l ih =>
    intro last rest hch
    rcases List.chain_cons.mp hch with ⟨h1, h2⟩
    show (l.foldl monoScanStep (monoScanStep (last :: rest) e)) = _
    have hstep : monoScanStep (last :: rest) e = e :: last :: rest := by
      show (if last.endStep ≤ e.startStep then e :: last :: rest else _) = _
      rw [if_pos (show last.endStep ≤ e.startStep from h1)]
    rw [hstep, ih e (last :: rest) h2]
    simp

theorem monoScan_of_chain {l : List NoteEvent}
    (h : List.Chain' noOverlap l) : monoScan l = l := by
  cases l with
  | nil => rfl
  | cons a l =>
    unfold monoScan
    show (l.foldl monoScanStep (monoScanStep [] a)).reverse = a :: l
    have : monoScanStep [] a = [a] := rfl
    rw [this, foldl_monoScanStep_of_chain l a [] h]
    simp

/-! Lemmas on `overlapPairs` and chains. -/

theorem chain'_iff_zip_tail :
    ∀ (l : List NoteEvent),
      (∀ p ∈ l.zip l.tail, noOverlap p.1 p.2) ↔ List.Chain' noOverlap l := by
  intro l
  cases l with
  | nil => simp
  | cons a l =>
    induction l generalizing a with
    | nil => simp
    | cons b m ih =>
      have hz : (a :: b :: m).zip ((a :: b :: m).tail) = (a, b) :: ((b :: m).zip m) := rfl
      rw [hz, List.chain'_cons]
      simp only [List.mem_cons]
      constructor
      · intro hp
        refine ⟨hp (a, b) (Or.inl rfl), ?_⟩
        refine (ih b).mp ?_
        intro p hpmem
        exact hp p (Or.inr hpmem)
      · rintro ⟨h1, h2⟩
        intro p hp
        rcases hp with rfl | hp
        · exact h1
        · exact ((ih b).mpr h2) p hp

theorem overlapPairs_eq_nil_iff (l : List NoteEvent) :
    overlapPairs l = [] ↔ List.Chain' noOverlap l := by
  rw [← chain'_iff_zip_tail]
  unfold overlapPairs
  rw [List.filter_eq_nil_iff]
  constructor
  · intro h p hp
    have := h p hp
    simp only [decide_eq_true_eq] at this
    exact not_lt.mp this
  · intro h p hp
    simp only [decide_eq_true_eq]
    exact not_lt.mpr (h p hp)


/-! Grouping lemmas: `resolveOverlaps` characterized per track. -/

theorem resolveOverlapsGroup_track (cons : Constraints) (events : List NoteEvent)
    (t : String) :
    ∀ e ∈ (if t ∈ cons.hard.monophonicTracks
        then monoScan (sortByStart (events.filter (fun e => e.track = t)))
        else events.filter (fun e => e.track = t)), e.track = t := by
  by_cases hm : t ∈ cons.hard.monophonicTracks
  · rw [if_pos hm]
    refine monoScan_track ?_
    intro e he
    have := mem_sortByStart.mp he
    exact of_decide_eq_true (List.mem_filter.mp this).2
  · rw [if_neg hm]
    intro e he
    exact of_decide_eq_true (List.mem_filter.mp he).2

theorem flatMap_group_filter {g : String → List NoteEvent} {t : String} :
    ∀ {keys : List String}, keys.Nodup → (∀ k, ∀ e ∈ g k, e.track = k) →
      (keys.flatMap g).filter (fun e => e.track = t) = if t ∈ keys then g t else [] := by
  intro keys
  induction keys with
  | nil => intro _ _; simp
  | cons k ks ih =>
    intro hnd hg
    rcases List.pairwise_cons.mp hnd with ⟨hk, hnd'⟩
    rw [List.flatMap_cons, List.filter_append, ih hnd' hg]
    by_cases hkt : k = t
    · subst hkt
      have h1 : (g k).filter (fun e => e.track = k) = g k := by
        rw [List.filter_eq_self]
        intro e he
        exact decide_eq_true (hg k e he)
      have h2 : k ∉ ks := fun hmem => (hk k hmem) rfl
      rw [h1, if_neg h2, if_pos (List.mem_cons_self k ks)]
      simp
    · have h1 : (g k).filter (fun e => e.track = t) = [] := by
        rw [List.filter_eq_nil_iff]
        intro e he
        simp only [decide_eq_true_eq]
        rw [hg k e he]
        exact hkt
      rw [h1, List.nil_append]
      by_cases hts : t ∈ ks
      · rw [if_pos hts, if_pos (List.mem_cons_of_mem k hts)]
      · rw [if_neg hts, if_neg ?_]
        intro hmem
        rcases List.mem_cons.mp hmem with rfl | hmem
        · exact hkt rfl
        · exact hts hmem

theorem resolveOverlaps_filter (cons : Constraints) (events : List NoteEvent) (t : String) :
    (resolveOverlaps cons events).filter (fun e => e.track = t) =
      if t ∈ cons.hard.monophonicTracks
        then monoScan (sortByStart (events.filter (fun e => e.track = t)))
        else events.filter (fun e => e.track = t) := by
  have hze : resolveOverlaps cons events =
      (trackKeys events).flatMap fun k =>
        if k ∈ cons.hard.monophonicTracks
          then monoScan (sortByStart (events.filter (fun e => e.track = k)))
          else events.filter (fun e => e.track = k) := rfl
  rw [hze, flatMap_group_filter (show (trackKeys events).Nodup from firstKeys_nodup _)
    (fun k => resolveOverlapsGroup_track cons events k)]
  by_cases hk : t ∈ trackKeys events
  · rw [if_pos hk]
  · rw [if_neg hk]
    have hnil : events.filter (fun e => e.track = t) = [] := by
      rw [List.filter_eq_nil_iff]
      intro e he
      simp only [decide_eq_true_eq]
      intro het
      exact hk (mem_trackKeys.mpr ⟨e, he, het⟩)
    rw [hnil]
    by_cases hm : t ∈ cons.hard.monophonicTracks
    · rw [if_pos hm]; rfl
    · rw [if_neg hm]

theorem mem_resolveOverlaps_of_chain {cons : Constraints} {events : List NoteEvent}
    (h : ∀ t ∈ cons.hard.monophonicTracks,
      List.Chain' noOverlap (sortByStart (events.filter (fun e => e.track = t)))) :
    ∀ x ∈ resolveOverlaps cons events, x ∈ events := by
  intro x hx
  have hxf : x ∈ (resolveOverlaps cons events).filter (fun e => e.track = x.track) :=
    List.mem_filter.mpr ⟨hx, by simp⟩
  rw [resolveOverlaps_filter] at hxf
  by_cases hm : x.track ∈ cons.hard.monophonicTracks
  · rw [if_pos hm, monoScan_of_chain (h _ hm)] at hxf
    exact (List.mem_filter.mp (mem_sortByStart.mp hxf)).1
  · rw [if_neg hm] at hxf
    exact (List.mem_filter.mp hxf).1

/-! Extraction lemmas for the validator. -/

theorem mem_ite_singleton {c : Prop} [Decidable c] {v x : Violation}
    (hx : x ∈ if c then [v] else ([] : List Violation)) : c ∧ x = v := by
  by_cases h : c
  · rw [if_pos h] at hx
    exact ⟨h, List.mem_singleton.mp hx⟩
  · rw [if_neg h] at hx
    exact absurd hx (List.not_mem_nil x)

theorem checkPolyphony_eq_nil_iff (cons : Constraints) (events : List NoteEvent) :
    checkPolyphony cons events = [] ↔
      ∀ t ∈ cons.hard.monophonicTracks,
        List.Chain' noOverlap (sortByStart (events.filter (fun e => e.track = t))) := by
  unfold checkPolyphony
  constructor
  · intro h t ht
    rw [← overlapPairs_eq_nil_iff]
    by_contra hne
    obtain ⟨p, hp⟩ := List.exists_mem_of_ne_nil _ hne
    have hmem : (⟨Severity.hard, Rule.monophonic, some t, none⟩ : Violation) ∈
        cons.hard.monophonicTracks.flatMap fun t =>
          (overlapPairs (sortByStart (events.filter (fun e => e.track = t)))).map fun _ =>
            ⟨Severity.hard, Rule.monophonic, some t, none⟩ := by
      refine List.mem_flatMap.mpr ⟨t, ht, ?_⟩
      exact List.mem_map.mpr ⟨p, hp, rfl⟩
    rw [h] at hmem
    exact List.not_mem_nil _ hmem
  · intro h
    rw [List.flatMap_eq_nil_iff]
    intro t ht
    rw [List.map_eq_nil_iff, overlapPairs_eq_nil_iff]
    exact h t ht

theorem checkPolyphony_shape {cons : Constraints} {events : List NoteEvent} {x : Violation}
    (hx : x ∈ checkPolyphony cons events) :
    x.severity = Severity.hard ∧ x.rule = Rule.monophonic := by
  unfold checkPolyphony at hx
  rcases List.mem_flatMap.mp hx with ⟨t, _, hmem⟩
  rcases List.mem_map.mp hmem with ⟨_, _, rfl⟩
  exact ⟨rfl, rfl⟩

theorem validateVariant_isValid_iff (cons : Constraints) (v : Variant) (ws we : Int) :
    (validateVariant cons v ws we).isValid = true ↔
      ∀ x ∈ eventsViolations cons ws we 0 v.events ++ checkPolyphony cons v.events,
        ¬ x.severity = Severity.hard := by
  show (List.filter _ _).isEmpty = true ↔ _
  rw [List.isEmpty_iff, List.filter_eq_nil_iff]
  constructor
  · intro h x hx hs
    exact h x hx (by simpa using hs)
  · intro h x hx hs
    exact h x hx (by simpa using hs)

theorem isValid_chain {cons : Constraints} {v : Variant} {ws we : Int}
    (h : (validateVariant cons v ws we).isValid = true) :
    ∀ t ∈ cons.hard.monophonicTracks,
      List.Chain' noOverlap (sortByStart (v.events.filter (fun e => e.track = t))) := by
  intro t ht
  rw [← overlapPairs_eq_nil_iff]
  by_contra hne
  obtain ⟨p, hp⟩ := List.exists_mem_of_ne_nil _ hne
  have hx : (⟨Severity.hard, Rule.monophonic, some t, none⟩ : Violation) ∈
      checkPolyphony cons v.events := by
    unfold checkPolyphony
    refine List.mem_flatMap.mpr ⟨t, ht, ?_⟩
    exact List.mem_map.mpr ⟨p, hp, rfl⟩
  exact (validateVariant_isValid_iff cons v ws we).mp h _
    (List.mem_append_right _ hx) rfl

theorem eventViolations_hard {cons : Constraints} {ws we : Int} {i : Nat}
    {e : NoteEvent} {x : Violation}
    (hx : x ∈ eventViolations cons ws we i e) (hh : x.severity = Severity.hard) :
    (x.rule = Rule.windowBounds ∧ (e.startStep < ws ∨ we ≤ e.startStep)) ∨
    (x.rule = Rule.pitchRange ∧ ∃ pr, cons.hard.pitchRanges.lookup e.track = some pr ∧
      (e.pitch < pr.min ∨ pr.max < e.pitch)) := by
  unfold eventViolations at hx
  rcases List.mem_append.mp hx with hx | hx
  · rcases List.mem_append.mp hx with hx | hx
    · rcases mem_ite_singleton hx with ⟨hc, rfl⟩
      exact Or.inl ⟨rfl, hc⟩
    · rcases hlk : cons.hard.pitchRanges.lookup e.track with _ | pr
      · rw [hlk] at hx
        exact absurd hx (List.not_mem_nil x)
      · rw [hlk] at hx
        rcases mem_ite_singleton hx with ⟨hc, rfl⟩
        exact Or.inr ⟨rfl, pr, rfl, hc⟩
  · by_cases hc : e.velocity ∈ cons.hard.velocityLevels
    · rw [if_pos hc] at hx
      exact absurd hx (List.not_mem_nil x)
    · rw [if_neg hc] at hx
      rw [List.mem_singleton.mp hx] at hh
      exact absurd hh (by simp)

theorem eventViolations_pitch_mem {cons : Constraints} {ws we : Int} {i : Nat}
    {e : NoteEvent} {pr : PitchRange}
    (hlk : cons.hard.pitchRanges.lookup e.track = some pr)
    (hout : e.pitch < pr.min ∨ pr.max < e.pitch) :
    (⟨Severity.hard, Rule.pitchRange, some e.track, some i⟩ : Violation) ∈
      eventViolations cons ws we i e := by
  unfold eventViolations
  refine List.mem_append_left _ (List.mem_append_right _ ?_)
  rw [hlk]
  show _ ∈ if e.pitch < pr.min ∨ pr.max < e.pitch then _ else []
  rw [if_pos hout]
  exact List.mem_singleton_self _

theorem eventsViolations_of_mem {cons : Constraints} {ws we : Int} :
    ∀ {l : List NoteEvent} {e : NoteEvent} (j : Nat), e ∈ l →
      ∃ i, ∀ x ∈ eventViolations cons ws we i e, x ∈ eventsViolations cons ws we j l := by
  intro l
  induction l with
  | nil => intro e j h; exact absurd h (List.not_mem_nil e)
  | cons a l ih =>
    intro e j h
    rcases List.mem_cons.mp h with rfl | h
    · exact ⟨j, fun x hx => List.mem_append_left _ hx⟩
    · rcases ih (j + 1) h with ⟨i, hi⟩
      exact ⟨i, fun x hx => List.mem_append_right _ (hi x hx)⟩

theorem eventsViolations_mem_source {cons : Constraints} {ws we : Int} :
    ∀ {l : List NoteEvent} {j : Nat} {x : Violation},
      x ∈ eventsViolations cons ws we j l →
        ∃ i e, e ∈ l ∧ x ∈ eventViolations cons ws we i e := by
  intro l
  induction l with
  | nil => intro j x h; exact absurd h (List.not_mem_nil x)
  | cons a l ih =>
    intro j x h
    rcases List.mem_append.mp h with h | h
    · exact ⟨j, a, List.mem_cons_self a l, h⟩
    · rcases ih h with ⟨i, e, he, hx⟩
      exact ⟨i, e, List.mem_cons_of_mem a he, hx⟩

theorem isValid_pitch {cons : Constraints} {v : Variant} {ws we : Int}
    (h : (validateVariant cons v ws we).isValid = true) :
    ∀ e ∈ v.events, ∀ pr, cons.hard.pitchRanges.lookup e.track = some pr →
      pr.min ≤ e.pitch ∧ e.pitch ≤ pr.max := by
  intro e he pr hlk
  by_contra hc
  rw [not_and_or, not_le, not_le] at hc
  have hout : e.pitch < pr.min ∨ pr.max < e.pitch := hc
  rcases @eventsViolations_of_mem cons ws we _ _ 0 he with ⟨i, hi⟩
  have hx := hi _ (@eventViolations_pitch_mem cons ws we i _ _ hlk hout)
  exact (validateVariant_isValid_iff cons v ws we).mp h _ (List.mem_append_left _ hx) rfl

/-! Extraction lemmas for the auto-corrector and the commit step. -/

theorem autoCorrect_some {cons : Constraints} {events : List NoteEvent}
    {validation : ValidationResult} {l : List NoteEvent}
    (h : autoCorrect cons events validation = some l) :
    l = resolveOverlaps cons (applyCorrections cons events validation) ∧
    ∃ a b, (validateVariant cons ⟨"corrected", ["auto_corrected"], l⟩ a b).isValid = true := by
  cases events with
  | nil => simp [autoCorrect] at h
  | cons e es =>
    simp only [autoCorrect] at h
    split at h
    · next hv =>
        cases h
        exact ⟨rfl, _, _, hv⟩
    · exact absurd h (by simp)

theorem composeBarStep_committed_valid (cons : Constraints) (barIdx : Nat)
    (selected : List NoteEvent) (rankScore : ℚ) :
    ∃ idv tagsv a b,
      (validateVariant cons ⟨idv, tagsv, (composeBarStep cons barIdx selected rankScore).committed⟩
        a b).isValid = true ∨
      (composeBarStep cons barIdx selected rankScore).committed = [] := by
  simp only [composeBarStep]
  by_cases hv : (validateVariant cons ⟨"v", [], applyPasses cons selected⟩
      (stepsPerBar * barIdx) (stepsPerBar * barIdx + stepsPerBar)).isValid = true
  · refine ⟨"v", [], stepsPerBar * barIdx, stepsPerBar * barIdx + stepsPerBar, ?_⟩
    rw [if_pos hv]
    exact Or.inl hv
  · rw [if_neg hv]
    rcases hac : autoCorrect cons (applyPasses cons selected)
        (validateVariant cons ⟨"v", [], applyPasses cons selected⟩
          (stepsPerBar * barIdx) (stepsPerBar * barIdx + stepsPerBar)) with _ | l
    · exact ⟨"v", [], 0, 0, Or.inr rfl⟩
    · rcases (autoCorrect_some hac).2 with ⟨a, b, hvalid⟩
      exact ⟨"corrected", ["auto_corrected"], a, b, Or.inl hvalid⟩

theorem firstKeys_length_dedup {α : Type} [DecidableEq α] (l : List α) :
    (firstKeys l).length = l.dedup.length := by
  have h1 : (firstKeys l).toFinset = l.dedup.toFinset := by
    ext x
    simp [mem_firstKeys, List.mem_dedup]
  have h2 := congrArg Finset.card h1
  rwa [List.toFinset_card_of_nodup (firstKeys_nodup l),
    List.toFinset_card_of_nodup l.nodup_dedup] at h2

/-! Lemmas for the rhythm-entropy bounds. -/

theorem list_toFinset_sum_count (l : List Int) :
    ∑ x ∈ l.toFinset, l.count x = l.length := by
  simp

theorem entropy_sum_nonneg (onsets : List Int) :
    0 ≤ ∑ x ∈ onsets.toFinset,
      -(((onsets.count x : ℝ) / (onsets.length : ℝ)) *
        Real.logb 2 ((onsets.count x : ℝ) / (onsets.length : ℝ))) := by
  apply Finset.sum_nonneg
  intro x hx
  have hxm : x ∈ onsets := List.mem_toFinset.mp hx
  have hc1 : 1 ≤ onsets.count x := List.count_pos_iff.mpr hxm
  have hcT : onsets.count x ≤ onsets.length := onsets.count_le_length x
  have hT : (0 : ℝ) < (onsets.length : ℝ) := by
    have : 0 < onsets.length := List.length_pos.mpr (List.ne_nil_of_mem hxm)
    exact_mod_cast this
  have hp0 : 0 ≤ (onsets.count x : ℝ) / (onsets.length : ℝ) := by positivity
  have hp1 : (onsets.count x : ℝ) / (onsets.length : ℝ) ≤ 1 := by
    rw [div_le_one hT]
    exact_mod_cast hcT
  have hlog : Real.logb 2 ((onsets.count x : ℝ) / (onsets.length : ℝ)) ≤ 0 :=
    Real.logb_nonpos (by norm_num) hp0 hp1
  have := mul_nonneg hp0 (neg_nonneg.mpr hlog)
  linarith

theorem entropy_sum_le (onsets : List Int) (hne : onsets ≠ []) :
    ∑ x ∈ onsets.toFinset,
      -(((onsets.count x : ℝ) / (onsets.length : ℝ)) *
        Real.logb 2 ((onsets.count x : ℝ) / (onsets.length : ℝ))) ≤
      Real.logb 2 (onsets.length : ℝ) := by
  have hT : 0 < onsets.length := List.length_pos.mpr hne
  have hTR : (0 : ℝ) < (onsets.length : ℝ) := by exact_mod_cast hT
  have hTne : ((onsets.length : ℝ)) ≠ 0 := ne_of_gt hTR
  have hstep : ∀ x ∈ onsets.toFinset,
      -(((onsets.count x : ℝ) / (onsets.length : ℝ)) *
        Real.logb 2 ((onsets.count x : ℝ) / (onsets.length : ℝ))) ≤
        ((onsets.count x : ℝ) / (onsets.length : ℝ)) *
          Real.logb 2 (onsets.length : ℝ) := by
    intro x hx
    have hxm : x ∈ onsets := List.mem_toFinset.mp hx
    have hc1 : 1 ≤ onsets.count x := List.count_pos_iff.mpr hxm
    have hc1R : (1 : ℝ) ≤ (onsets.count x : ℝ) := by exact_mod_cast hc1
    have hcne : ((onsets.count x : ℝ)) ≠ 0 := by linarith
    have hp0 : 0 ≤ (onsets.count x : ℝ) / (onsets.length : ℝ) := by positivity
    rw [Real.logb_div hcne hTne]
    have hlogc : 0 ≤ Real.logb 2 (onsets.count x : ℝ) :=
      Real.logb_nonneg (by norm_num) hc1R
    have hpc := mul_nonneg hp0 hlogc
    have h2 : -(((onsets.count x : ℝ) / (onsets.length : ℝ)) *
          (Real.logb 2 (onsets.count x : ℝ) - Real.logb 2 (onsets.length : ℝ))) =
        ((onsets.count x : ℝ) / (onsets.length : ℝ)) * Real.logb 2 (onsets.length : ℝ) -
          ((onsets.count x : ℝ) / (onsets.length : ℝ)) * Real.logb 2 (onsets.count x : ℝ) := by
      ring
    rw [h2]
    linarith
  calc
    ∑ x ∈ onsets.toFinset,
        -(((onsets.count x : ℝ) / (onsets.length : ℝ)) *
          Real.logb 2 ((onsets.count x : ℝ) / (onsets.length : ℝ))) ≤
        ∑ x ∈ onsets.toFinset,
          ((onsets.count x : ℝ) / (onsets.length : ℝ)) *
            Real.logb 2 (onsets.length : ℝ) := Finset.sum_le_sum hstep
    _ = (∑ x ∈ onsets.toFinset, (onsets.count x : ℝ)) / (onsets.length : ℝ) *
          Real.logb 2 (onsets.length : ℝ) := by
        rw [← Finset.sum_mul, ← Finset.sum_div]
    _ = Real.logb 2 (onsets.length : ℝ) := by
        have hs : (∑ x ∈ onsets.toFinset, (onsets.count x : ℝ)) = (onsets.length : ℝ) := by
          rw [← Nat.cast_sum]
          exact congrArg (fun n : ℕ => (n : ℝ)) (list_toFinset_sum_count onsets)
        rw [hs, div_self hTne, one_mul]

theorem rhythmEntropy_bounds (events : List NoteEvent) (W : Int) :
    0 ≤ rhythmEntropy events W ∧ rhythmEntropy events W ≤ 1 ∧
      (events.length < 2 → rhythmEntropy events W = 0) := by
  by_cases hg : events = [] ∨ W = 0
  · simp only [rhythmEntropy, if_pos hg]
    exact ⟨le_refl 0, by norm_num, fun _ => trivial⟩
  · simp only [rhythmEntropy, if_neg hg]
    push_neg at hg
    obtain ⟨hne, _⟩ := hg
    set onsets := events.map (fun e => e.startStep % W) with honsets
    have hone : onsets ≠ [] := by
      simp only [honsets, ne_eq, List.map_eq_nil_iff]
      exact hne
    have hlen : onsets.length = events.length := List.length_map _ _
    have hH0 := entropy_sum_nonneg onsets
    have hHle := entropy_sum_le onsets hone
    by_cases ht : 1 < onsets.length
    · have hlog : 0 < Real.logb 2 (onsets.length : ℝ) :=
        Real.logb_pos (by norm_num) (by exact_mod_cast ht)
      rw [if_pos ht, if_pos hlog]
      refine ⟨div_nonneg hH0 hlog.le, (div_le_one hlog).mpr hHle, ?_⟩
      intro hlt
      rw [hlen] at ht
      omega
    · have h1 : onsets.length = 1 := by
        have hpos := List.length_pos.mpr hone
        omega
      rw [if_neg ht, if_pos (by norm_num : (0 : ℝ) < 1), div_one]
      have hlog0 : Real.logb 2 (onsets.length : ℝ) = 0 := by
        rw [h1]
        simp
      have hle0 : (∑ x ∈ onsets.toFinset,
          -(((onsets.count x : ℝ) / (onsets.length : ℝ)) *
            Real.logb 2 ((onsets.count x : ℝ) / (onsets.length : ℝ)))) ≤ 0 :=
        hlog0 ▸ hHle
      have hH : (∑ x ∈ onsets.toFinset,
          -(((onsets.count x : ℝ) / (onsets.length : ℝ)) *
            Real.logb 2 ((onsets.count x : ℝ) / (onsets.length : ℝ)))) = 0 :=
        le_antisymm hle0 hH0
      rw [hH]
      exact ⟨le_refl 0, by norm_num, fun _ => rfl⟩

/-! ## Claim theorems -/

/-- C1, counterexample.  The claim states that the overlap-resolution pass
drops the current event entirely when the truncated duration would be ≤ 0.
On the monophonic track `pulse1` with two events both starting at step 0,
the code keeps the current event unchanged (the claimed behavior would drop
it), so the claim as stated is false: the code output differs from the
claimed output, and the overlap survives the pass. -/
theorem C1_counterexample :
    resolveOverlaps Constraints.default8bit exSameStart =
      [⟨"pulse1", 60, 100, 0, 4⟩, ⟨"pulse1", 62, 100, 0, 4⟩] ∧
    resolveOverlapsClaimed Constraints.default8bit exSameStart =
      [⟨"pulse1", 62, 100, 0, 4⟩] ∧
    ¬ List.Chain' noOverlap (resolveOverlaps Constraints.default8bit exSameStart) :=
  ⟨by decide, by decide, by decide⟩

/-- C1, amended.  For every event list and every track marked monophonic in
the constraints, the overlap-resolution pass sorts that track's events by
start step and scans left to right (`monoScan`); whenever the next event
starts before the current one ends, it replaces the current event with a new
event whose duration is shortened to exactly reach the next event's start
step, *keeps the current event unchanged* (leaving the overlap unresolved)
if that resulting duration would be ≤ 0, and never moves or drops the later
event — the scan preserves the number of events and every field except the
duration; events on non-monophonic tracks pass through unchanged.  For a
window of length 16 and events (60, start 0, dur 8), (62, start 4, dur 8)
on monophonic `pulse1`, the result is (60, start 0, dur 4) followed by
(62, start 4, dur 8). -/
theorem C1_overlap_resolution_amended (cons : Constraints) (events : List NoteEvent)
    (t : String) (l : List NoteEvent) :
    ((resolveOverlaps cons events).filter (fun e => e.track = t) =
      if t ∈ cons.hard.monophonicTracks
        then monoScan (sortByStart (events.filter (fun e => e.track = t)))
        else events.filter (fun e => e.track = t)) ∧
    (monoScan l).length = l.length ∧
    (monoScan l).map eventFields4 = l.map eventFields4 ∧
    resolveOverlaps Constraints.default8bit exPair =
      [⟨"pulse1", 60, 100, 0, 4⟩, ⟨"pulse1", 62, 100, 4, 8⟩] :=
  ⟨resolveOverlaps_filter cons events t, monoScan_length l, monoScan_map4 l, by decide⟩

/-- C2, counterexample.  The claimed invariant — in the final committed
score, monophonic tracks have no overlapping events — fails across window
boundaries: a run whose window-0 variant holds (pulse1, start 15, dur 8) and
whose window-1 variant holds (pulse1, start 16, dur 4) passes both
per-window validations (each window in isolation has no monophony or bounds
violation), yet the committed score has two overlapping `pulse1` events. -/
theorem C2_counterexample :
    "pulse1" ∈ Constraints.default8bit.hard.monophonicTracks ∧
    (composeLoop Constraints.default8bit exCrossOracle 2).events =
      [⟨"pulse1", 60, 100, 15, 8⟩, ⟨"pulse1", 60, 100, 16, 4⟩] ∧
    ¬ List.Chain' noOverlap (sortByStart
        (((composeLoop Constraints.default8bit exCrossOracle 2).events).filter
          (fun e => e.track = "pulse1"))) :=
  ⟨by decide, by decide, by decide⟩

/-- C2, amended.  Events are only appended to the score when the per-window
validation (or the post-repair re-validation) reports no monophony
violation, so the committed events of each single window, restricted to a
monophonic track and sorted by start step, satisfy
`event[i].end_step ≤ event[i+1].start_step` for every consecutive pair.
The invariant holds per committed window batch; it does not extend across
windows (durations may cross the bar boundary, see the counterexample). -/
theorem C2_per_window_monophony (cons : Constraints) (barIdx : Nat)
    (selected : List NoteEvent) (rankScore : ℚ) :
    ∀ t ∈ cons.hard.monophonicTracks,
      List.Chain' noOverlap (sortByStart
        (((composeBarStep cons barIdx selected rankScore).committed).filter
          (fun e => e.track = t))) := by
  intro t ht
  rcases composeBarStep_committed_valid cons barIdx selected rankScore
    with ⟨idv, tagsv, a, b, h | h⟩
  · exact isValid_chain h t ht
  · rw [h]
    exact trivial

/-- C2, amended, witness at a concrete input. -/
theorem C2_per_window_monophony_witness :
    "pulse1" ∈ Constraints.default8bit.hard.monophonicTracks ∧
    List.Chain' noOverlap (sortByStart
      (((composeBarStep Constraints.default8bit 0 exPair 50).committed).filter
        (fun e => e.track = "pulse1"))) :=
  ⟨by decide,
    C2_per_window_monophony Constraints.default8bit 0 exPair 50 "pulse1" (by decide)⟩

theorem composeBarStep_committed_pitch (cons : Constraints) (barIdx : Nat)
    (selected : List NoteEvent) (rankScore : ℚ) :
    ∀ e ∈ (composeBarStep cons barIdx selected rankScore).committed,
      ∀ pr, cons.hard.pitchRanges.lookup e.track = some pr →
        pr.min ≤ e.pitch ∧ e.pitch ≤ pr.max := by
  intro e he pr hlk
  rcases composeBarStep_committed_valid cons barIdx selected rankScore
    with ⟨idv, tagsv, a, b, h | h⟩
  · exact isValid_pitch h e he pr hlk
  · rw [h] at he
    exact absurd he (List.not_mem_nil e)

/-- C3.  In every run of the composition loop, every committed event whose
track has a configured pitch range has its pitch within that range's
[min, max]: a variant is only appended after the per-window validation or
the auto-corrector's re-validation reported no hard violation, and both
validations flag out-of-range pitches as hard violations. -/
theorem C3_committed_pitch_in_range (cons : Constraints)
    (oracle : Nat → List NoteEvent × ℚ) (n : Nat) :
    ∀ e ∈ (composeLoop cons oracle n).events,
      ∀ pr, cons.hard.pitchRanges.lookup e.track = some pr →
        pr.min ≤ e.pitch ∧ e.pitch ≤ pr.max := by
  induction n with
  | zero => intro e he; exact absurd he (List.not_mem_nil e)
  | succ n ih =>
    intro e he pr hlk
    have hev : (composeLoop cons oracle (n + 1)).events =
        (composeLoop cons oracle n).events ++
          (composeBarStep cons n (oracle n).1 (oracle n).2).committed := rfl
    rw [hev] at he
    rcases List.mem_append.mp he with he | he
    · exact ih e he pr hlk
    · exact composeBarStep_committed_pitch cons n (oracle n).1 (oracle n).2 e he pr hlk

/-- C3, witness at a concrete input: a valid `pulse1` event committed in a
one-window run lies within the configured range [48, 96]. -/
theorem C3_witness :
    (⟨"pulse1", 60, 100, 0, 4⟩ : NoteEvent) ∈
      (composeLoop Constraints.default8bit exValidOracle 1).events ∧
    Constraints.default8bit.hard.pitchRanges.lookup "pulse1" = some ⟨48, 96⟩ ∧
    ((48 : Int) ≤ 60 ∧ (60 : Int) ≤ 96) :=
  ⟨by decide, by decide,
    C3_committed_pitch_in_range Constraints.default8bit exValidOracle 1
      ⟨"pulse1", 60, 100, 0, 4⟩ (by decide) ⟨48, 96⟩ (by decide)⟩

theorem composeBarStep_repaired {cons : Constraints} {barIdx : Nat}
    {sel : List NoteEvent} {rankScore : ℚ} {l : List NoteEvent}
    (hinvalid : (validateVariant cons ⟨"v", [], applyPasses cons sel⟩
      (stepsPerBar * barIdx) (stepsPerBar * barIdx + stepsPerBar)).isValid = false)
    (hcorr : autoCorrect cons (applyPasses cons sel)
      (validateVariant cons ⟨"v", [], applyPasses cons sel⟩
        (stepsPerBar * barIdx) (stepsPerBar * barIdx + stepsPerBar)) = some l) :
    composeBarStep cons barIdx sel rankScore =
      ⟨l, true, ⟨barIdx, rankScore, 0, 0, false⟩⟩ := by
  simp only [composeBarStep, hinvalid, hcorr]
  simp

/-- C9 (implicit).  For every window whose initial validation fails but
whose auto-correction succeeds with corrected events `l`, the loop appends
`l` to the score and increments the session's total-event and
validation-pass counters by `l.length` and 1 — yet the recorded
`IterationResult` for that window reports `passed_validation = false`,
`events_added = 0` and `score_after_validation = 0`: the per-window record
and the session counters disagree about repaired windows. -/
theorem C9_repaired_window_bookkeeping (cons : Constraints)
    (oracle : Nat → List NoteEvent × ℚ) (n : Nat) (l : List NoteEvent)
    (hinvalid : (validateVariant cons ⟨"v", [], applyPasses cons (oracle n).1⟩
      (stepsPerBar * n) (stepsPerBar * n + stepsPerBar)).isValid = false)
    (hcorr : autoCorrect cons (applyPasses cons (oracle n).1)
      (validateVariant cons ⟨"v", [], applyPasses cons (oracle n).1⟩
        (stepsPerBar * n) (stepsPerBar * n + stepsPerBar)) = some l) :
    (composeLoop cons oracle (n + 1)).events = (composeLoop cons oracle n).events ++ l ∧
    (composeLoop cons oracle (n + 1)).totalEvents =
      (composeLoop cons oracle n).totalEvents + l.length ∧
    (composeLoop cons oracle (n + 1)).validationPasses =
      (composeLoop cons oracle n).validationPasses + 1 ∧
    (composeLoop cons oracle (n + 1)).iterations =
      (composeLoop cons oracle n).iterations ++ [⟨n, (oracle n).2, 0, 0, false⟩] := by
  have hstep := @composeBarStep_repaired cons n (oracle n).1 (oracle n).2 l hinvalid hcorr
  simp only [composeLoop, hstep]
  refine ⟨trivial, trivial, ?_, trivial⟩
  rw [if_pos trivial]

/-- C9, witness at a concrete input: the out-of-range `triangle` event is
repaired (clamped to pitch 60) and committed, counters advance, while the
iteration record reports a failed window with zero events added. -/
theorem C9_witness :
    (validateVariant Constraints.default8bit
      ⟨"v", [], applyPasses Constraints.default8bit (exOutOfRangeOracle 0).1⟩
      (stepsPerBar * 0) (stepsPerBar * 0 + stepsPerBar)).isValid = false ∧
    (composeLoop Constraints.default8bit exOutOfRangeOracle 1).totalEvents =
      (composeLoop Constraints.default8bit exOutOfRangeOracle 0).totalEvents + 1 ∧
    (composeLoop Constraints.default8bit exOutOfRangeOracle 1).validationPasses =
      (composeLoop Constraints.default8bit exOutOfRangeOracle 0).validationPasses + 1 ∧
    (composeLoop Constraints.default8bit exOutOfRangeOracle 1).iterations =
      [⟨0, 50, 0, 0, false⟩] := by
  have h := C9_repaired_window_bookkeeping Constraints.default8bit exOutOfRangeOracle 0
    [⟨"triangle", 60, 100, 0, 4⟩] (by decide) (by decide)
  exact ⟨by decide, h.2.1, h.2.2.1, h.2.2.2⟩

/-- C4.  For every metric record and variant event list, the scalar score
computed by the evaluator equals, clamped to [0, 100]: 50, minus 10 per
range violation, minus 15 per polyphony violation, plus 20 × style
compliance, plus a flat +10 when repetition lies in [0.2, 0.4] or −5 when
repetition exceeds 0.6, plus 10 × rhythm entropy, plus +5 when density is
within 0.2 of the configured target density (expressed per step), plus 3 ×
the number of distinct tracks used by the variant's events. -/
theorem C4_score_formula (cons : Constraints) (m : MetricsQ) (events : List NoteEvent) :
    calcScore cons m events = scoreClaimC4 cons m events := by
  simp only [calcScore, scoreClaimC4, trackKeys]
  rw [← firstKeys_length_dedup]
  split_ifs <;>
    first
      | (exfalso; linarith)
      | (rw [max_min_distrib_left]
         have h100 : max (0 : ℚ) 100 = 100 := by norm_num
         rw [h100]
         congr 1
         congr 1
         ring)

theorem styleCompliance_cases (cons : Constraints) (events : List NoteEvent) (ws we : Int) :
    styleCompliance cons events ws we = 1 / 2 ∨
    ∃ s, styleCompliance cons events ws we = max 0 (min 1 s) := by
  cases events with
  | nil => exact Or.inl rfl
  | cons a l => exact Or.inr ⟨_, rfl⟩

theorem styleCompliance_mem (cons : Constraints) (events : List NoteEvent) (ws we : Int) :
    0 ≤ styleCompliance cons events ws we ∧ styleCompliance cons events ws we ≤ 1 := by
  rcases styleCompliance_cases cons events ws we with h | ⟨s, h⟩
  · rw [h]
    norm_num
  · rw [h]
    exact ⟨le_max_left 0 _, max_le (by norm_num) (min_le_left _ _)⟩

/-- C5.  The evaluator's outputs respect their declared ranges for every
input: the scalar score lies in [0, 100]; the repetition metric lies in
[0, 1]; style compliance lies in [0, 1]; and the rhythm entropy — the
Shannon entropy of the onset histogram taken modulo the window size,
normalized by log2 of the event count — lies in [0, 1] and is 0 when the
variant has fewer than 2 events. -/
theorem C5_output_ranges (cons : Constraints) (m : MetricsQ)
    (scoreEvents events : List NoteEvent) (ws we W : Int) :
    (0 ≤ calcScore cons m scoreEvents ∧ calcScore cons m scoreEvents ≤ 100) ∧
    (0 ≤ calcRepetition events ∧ calcRepetition events ≤ 1) ∧
    (0 ≤ styleCompliance cons events ws we ∧ styleCompliance cons events ws we ≤ 1) ∧
    (0 ≤ rhythmEntropy events W ∧ rhythmEntropy events W ≤ 1) ∧
    (events.length < 2 → rhythmEntropy events W = 0) := by
  refine ⟨⟨?_, ?_⟩, ⟨?_, ?_⟩, ⟨?_, ?_⟩, ?_, ?_⟩
  · simp only [calcScore]
    exact le_max_left 0 _
  · simp only [calcScore]
    exact max_le (by norm_num) (min_le_left _ _)
  · simp only [calcRepetition]
    split_ifs
    · exact le_refl 0
    · exact le_min (by norm_num) (by positivity)
  · simp only [calcRepetition]
    split_ifs
    · norm_num
    · exact min_le_left _ _
  · exact (styleCompliance_mem cons events ws we).1
  · exact (styleCompliance_mem cons events ws we).2
  · exact ⟨(rhythmEntropy_bounds events W).1, (rhythmEntropy_bounds events W).2.1⟩
  · exact (rhythmEntropy_bounds events W).2.2

theorem clampPitch_idem (pr : PitchRange) (p : Int) :
    clampPitch pr (clampPitch pr p) = clampPitch pr p := by
  simp only [clampPitch, max_def, min_def]
  split_ifs <;> omega

theorem applyCorrectionAt_cases (cons : Constraints) (evs : List NoteEvent) (i : Nat) :
    applyCorrectionAt cons evs i = evs ∨
    ∃ e pr, evs[i]? = some e ∧ cons.hard.pitchRanges.lookup e.track = some pr ∧
      applyCorrectionAt cons evs i = evs.set i { e with pitch := clampPitch pr e.pitch } := by
  rcases hg : evs[i]? with _ | e
  · left
    simp only [applyCorrectionAt, hg]
  · rcases hlk : cons.hard.pitchRanges.lookup e.track with _ | pr
    · left
      simp only [applyCorrectionAt, hg, hlk]
    · right
      exact ⟨e, pr, rfl, hlk, by simp only [applyCorrectionAt, hg, hlk]⟩

theorem applyCorrection_cases (cons : Constraints) (evs : List NoteEvent) (v : Violation) :
    applyCorrection cons evs v = evs ∨
    ∃ i e pr, v.rule = Rule.pitchRange ∧ v.eventIndex = some i ∧ evs[i]? = some e ∧
      cons.hard.pitchRanges.lookup e.track = some pr ∧
      applyCorrection cons evs v = evs.set i { e with pitch := clampPitch pr e.pitch } := by
  by_cases hr : v.rule = Rule.pitchRange
  · rcases hv : v.eventIndex with _ | i
    · left
      simp only [applyCorrection, if_pos hr, hv]
    · have he : applyCorrection cons evs v = applyCorrectionAt cons evs i := by
        simp only [applyCorrection, if_pos hr, hv]
      rw [he]
      rcases applyCorrectionAt_cases cons evs i with h | ⟨e, pr, hg, hlk, hset⟩
      · exact Or.inl h
      · exact Or.inr ⟨i, e, pr, hr, rfl, hg, hlk, hset⟩
  · left
    simp only [applyCorrection, if_neg hr]

theorem applyCorrections_fold_spec (cons : Constraints) :
    ∀ (vs : List Violation) (evs : List NoteEvent),
      (vs.foldl (applyCorrection cons) evs).length = evs.length ∧
      ∀ j e', (vs.foldl (applyCorrection cons) evs)[j]? = some e' →
        ∃ e, evs[j]? = some e ∧ e'.track = e.track ∧ e'.velocity = e.velocity ∧
          e'.startStep = e.startStep ∧ e'.durSteps = e.durSteps ∧
          (e'.pitch = e.pitch ∨
            ((∃ v ∈ vs, v.rule = Rule.pitchRange ∧ v.eventIndex = some j) ∧
             ∃ pr, cons.hard.pitchRanges.lookup e.track = some pr ∧
               e'.pitch = clampPitch pr e.pitch)) := by
  intro vs
  induction vs with
  | nil =>
    intro evs
    exact ⟨rfl, fun j e' h => ⟨e', h, rfl, rfl, rfl, rfl, Or.inl rfl⟩⟩
  | cons v vs ih =>
    intro evs
    have hfold : (v :: vs).foldl (applyCorrection cons) evs =
        vs.foldl (applyCorrection cons) (applyCorrection cons evs v) := rfl
    rw [hfold]
    rcases applyCorrection_cases cons evs v with hid | ⟨i, e, pr, hrule, hidx, hget, hlk, hset⟩
    · rw [hid]
      rcases ih evs with ⟨hlen, hspec⟩
      refine ⟨hlen, fun j e' h => ?_⟩
      rcases hspec j e' h with ⟨e₀, hj, h1, h2, h3, h4, h5⟩
      refine ⟨e₀, hj, h1, h2, h3, h4, ?_⟩
      rcases h5 with h5 | ⟨⟨v', hv', hprop⟩, hclamp⟩
      · exact Or.inl h5
      · exact Or.inr ⟨⟨v', List.mem_cons_of_mem v hv', hprop⟩, hclamp⟩
    · rw [hset]
      rcases ih (evs.set i { e with pitch := clampPitch pr e.pitch }) with ⟨hlen, hspec⟩
      have hilt : i < evs.length := (List.getElem?_eq_some.mp hget).1
      constructor
      · rw [hlen, List.length_set]
      · intro j e' h
        rcases hspec j e' h with ⟨e₁, hj1, h1, h2, h3, h4, h5⟩
        by_cases hij : i = j
        · subst hij
          rw [List.getElem?_set_eq_of_lt _ hilt] at hj1
          cases hj1
          refine ⟨e, hget, h1, h2, h3, h4, ?_⟩
          rcases h5 with h5 | ⟨⟨v', hv', hprop⟩, pr', hlk', hcl⟩
          · exact Or.inr ⟨⟨v, List.mem_cons_self v vs, hrule, hidx⟩, pr, hlk, h5⟩
          · have hpr : pr' = pr := by
              have hlk2 : cons.hard.pitchRanges.lookup e.track = some pr' := hlk'
              rw [hlk] at hlk2
              exact (Option.some.inj hlk2).symm
            rw [hpr] at hcl
            refine Or.inr ⟨⟨v', List.mem_cons_of_mem v hv', hprop⟩, pr, hlk, ?_⟩
            rw [hcl]
            exact clampPitch_idem pr e.pitch
        · rw [List.getElem?_set_ne hij] at hj1
          refine ⟨e₁, hj1, h1, h2, h3, h4, ?_⟩
          rcases h5 with h5 | ⟨⟨v', hv', hprop⟩, hclamp⟩
          · exact Or.inl h5
          · exact Or.inr ⟨⟨v', List.mem_cons_of_mem v hv', hprop⟩, hclamp⟩

/-- C6.  On a nonempty event list, the auto-corrector repairs only the
pitch-range violation class: the corrected list has the same length; every
event keeps its track, velocity, start and duration, and a changed pitch
happens only at an index flagged by a hard pitch-range violation and equals
the original pitch clamped into the flagged track's configured range; a
violation with any other rule (monophony, missing tracks, event-count cap,
window bounds) never alters the events.  After the clamps the overlaps are
re-resolved, and the corrector returns the corrected list exactly when
re-validation against the dilated window [min start, max start + 16] reports
no hard violations; otherwise it returns none. -/
theorem C6_auto_correct_only_pitch (cons : Constraints) (e0 : NoteEvent)
    (rest : List NoteEvent) (validation : ValidationResult) :
    (applyCorrections cons (e0 :: rest) validation).length = (e0 :: rest).length ∧
    (∀ j e', (applyCorrections cons (e0 :: rest) validation)[j]? = some e' →
      ∃ e, (e0 :: rest)[j]? = some e ∧ e'.track = e.track ∧ e'.velocity = e.velocity ∧
        e'.startStep = e.startStep ∧ e'.durSteps = e.durSteps ∧
        (e'.pitch = e.pitch ∨
          ((∃ v ∈ validation.hardViolations,
              v.rule = Rule.pitchRange ∧ v.eventIndex = some j) ∧
           ∃ pr, cons.hard.pitchRanges.lookup e.track = some pr ∧
             e'.pitch = clampPitch pr e.pitch))) ∧
    (∀ evs v, ¬ v.rule = Rule.pitchRange → applyCorrection cons evs v = evs) ∧
    (autoCorrect cons (e0 :: rest) validation =
      if (validateVariant cons
          ⟨"corrected", ["auto_corrected"],
            resolveOverlaps cons (applyCorrections cons (e0 :: rest) validation)⟩
          (rest.foldl (fun m x => min m x.startStep) e0.startStep)
          (rest.foldl (fun m x => max m x.startStep) e0.startStep + 16)).hardViolations.isEmpty
        then some (resolveOverlaps cons (applyCorrections cons (e0 :: rest) validation))
        else none) := by
  refine ⟨(applyCorrections_fold_spec cons validation.hardViolations (e0 :: rest)).1,
    (applyCorrections_fold_spec cons validation.hardViolations (e0 :: rest)).2, ?_, rfl⟩
  intro evs v hv
  simp only [applyCorrection, if_neg hv]

/-! Lemmas for C10: the dilated re-validation window. -/

theorem foldl_min_le_start :
    ∀ (es : List NoteEvent) (a : Int),
      (es.foldl (fun m x => min m x.startStep) a) ≤ a ∧
      ∀ x ∈ es, (es.foldl (fun m x => min m x.startStep) a) ≤ x.startStep := by
  intro es
  induction es with
  | nil => intro a; exact ⟨le_refl a, fun x hx => absurd hx (List.not_mem_nil x)⟩
  | cons b es ih =>
    intro a
    refine ⟨(ih (min a b.startStep)).1.trans (min_le_left _ _), ?_⟩
    intro x hx
    rcases List.mem_cons.mp hx with rfl | hx
    · exact (ih (min a x.startStep)).1.trans (min_le_right _ _)
    · exact (ih (min a b.startStep)).2 x hx

theorem le_foldl_max_start :
    ∀ (es : List NoteEvent) (a : Int),
      a ≤ (es.foldl (fun m x => max m x.startStep) a) ∧
      ∀ x ∈ es, x.startStep ≤ (es.foldl (fun m x => max m x.startStep) a) := by
  intro es
  induction es with
  | nil => intro a; exact ⟨le_refl a, fun x hx => absurd hx (List.not_mem_nil x)⟩
  | cons b es ih =>
    intro a
    refine ⟨(le_max_left _ _).trans (ih (max a b.startStep)).1, ?_⟩
    intro x hx
    rcases List.mem_cons.mp hx with rfl | hx
    · exact (le_max_right _ _).trans (ih (max a x.startStep)).1
    · exact (ih (max a b.startStep)).2 x hx

theorem eventViolations_windowBounds {cons : Constraints} {ws we : Int} {i : Nat}
    {e : NoteEvent} {x : Violation}
    (hx : x ∈ eventViolations cons ws we i e) (hr : x.rule = Rule.windowBounds) :
    e.startStep < ws ∨ we ≤ e.startStep := by
  unfold eventViolations at hx
  rcases List.mem_append.mp hx with hx | hx
  · rcases List.mem_append.mp hx with hx | hx
    · exact (mem_ite_singleton hx).1
    · rcases hlk : cons.hard.pitchRanges.lookup e.track with _ | pr
      · rw [hlk] at hx
        exact absurd hx (List.not_mem_nil x)
      · rw [hlk] at hx
        rcases mem_ite_singleton hx with ⟨_, rfl⟩
        exact Rule.noConfusion hr
  · by_cases hc : e.velocity ∈ cons.hard.velocityLevels
    · rw [if_pos hc] at hx
      exact absurd hx (List.not_mem_nil x)
    · rw [if_neg hc] at hx
      rw [List.mem_singleton.mp hx] at hr
      exact Rule.noConfusion hr

theorem hard_mem_of_violation {cons : Constraints} {v : Variant} {ws we : Int} {x : Violation}
    (hx : x ∈ (validateVariant cons v ws we).violations) (hs : x.severity = Severity.hard) :
    x ∈ (validateVariant cons v ws we).hardViolations :=
  List.mem_filter.mpr ⟨hx, by simp [hs]⟩

theorem validateVariant_valid_of (cons : Constraints) (v : Variant) (ws we : Int)
    (hev : ∀ e ∈ v.events, (ws ≤ e.startStep ∧ e.startStep < we) ∧
      ∀ pr, cons.hard.pitchRanges.lookup e.track = some pr →
        pr.min ≤ e.pitch ∧ e.pitch ≤ pr.max)
    (hch : ∀ t ∈ cons.hard.monophonicTracks,
      List.Chain' noOverlap (sortByStart (v.events.filter (fun e => e.track = t)))) :
    (validateVariant cons v ws we).isValid = true := by
  rw [validateVariant_isValid_iff]
  intro x hx hhard
  rcases List.mem_append.mp hx with hx | hx
  · rcases eventsViolations_mem_source hx with ⟨i, e, he, hxe⟩
    rcases eventViolations_hard hxe hhard with ⟨_, hout⟩ | ⟨_, pr, hlk, hout⟩
    · rcases hout with h | h
      · exact absurd (hev e he).1.1 (not_le.mpr h)
      · exact absurd (hev e he).1.2 (not_lt.mpr h)
    · rcases hout with h | h
      · exact absurd ((hev e he).2 pr hlk).1 (not_le.mpr h)
      · exact absurd ((hev e he).2 pr hlk).2 (not_le.mpr h)
  · have hnil := (checkPolyphony_eq_nil_iff cons v.events).mpr hch
    rw [hnil] at hx
    exact absurd hx (List.not_mem_nil x)

theorem foldl_applyCorrection_id (cons : Constraints) :
    ∀ (vs : List Violation) (evs : List NoteEvent),
      (∀ v ∈ vs, ¬ v.rule = Rule.pitchRange) →
        vs.foldl (applyCorrection cons) evs = evs := by
  intro vs
  induction vs with
  | nil => intro evs _; rfl
  | cons v vs ih =>
    intro evs h
    have hstep : applyCorrection cons evs v = evs := by
      simp only [applyCorrection, if_neg (h v (List.mem_cons_self v vs))]
    show vs.foldl (applyCorrection cons) (applyCorrection cons evs v) = evs
    rw [hstep]
    exact ih evs (fun w hw => h w (List.mem_cons_of_mem v hw))

theorem wb_pitch_in_range {cons : Constraints} {idv : String} {tagsv : List String}
    {events : List NoteEvent} {ws we : Int}
    (hwb : ∀ v ∈ (validateVariant cons ⟨idv, tagsv, events⟩ ws we).hardViolations,
      v.rule = Rule.windowBounds) :
    ∀ e ∈ events, ∀ pr, cons.hard.pitchRanges.lookup e.track = some pr →
      pr.min ≤ e.pitch ∧ e.pitch ≤ pr.max := by
  intro e he pr hlk
  by_contra hc
  rw [not_and_or, not_le, not_le] at hc
  have hout : e.pitch < pr.min ∨ pr.max < e.pitch := hc
  rcases @eventsViolations_of_mem cons ws we _ _ 0 he with ⟨i, hi⟩
  have hx := hi _ (@eventViolations_pitch_mem cons ws we i _ _ hlk hout)
  have hmem : (⟨Severity.hard, Rule.pitchRange, some e.track, some i⟩ : Violation) ∈
      (validateVariant cons ⟨idv, tagsv, events⟩ ws we).violations :=
    List.mem_append_left _ hx
  have := hwb _ (hard_mem_of_violation hmem rfl)
  exact Rule.noConfusion this

theorem wb_chains {cons : Constraints} {idv : String} {tagsv : List String}
    {events : List NoteEvent} {ws we : Int}
    (hwb : ∀ v ∈ (validateVariant cons ⟨idv, tagsv, events⟩ ws we).hardViolations,
      v.rule = Rule.windowBounds) :
    ∀ t ∈ cons.hard.monophonicTracks,
      List.Chain' noOverlap (sortByStart (events.filter (fun e => e.track = t))) := by
  intro t ht
  rw [← overlapPairs_eq_nil_iff]
  by_contra hne
  obtain ⟨p, hp⟩ := List.exists_mem_of_ne_nil _ hne
  have hx : (⟨Severity.hard, Rule.monophonic, some t, none⟩ : Violation) ∈
      checkPolyphony cons events := by
    unfold checkPolyphony
    refine List.mem_flatMap.mpr ⟨t, ht, ?_⟩
    exact List.mem_map.mpr ⟨p, hp, rfl⟩
  have hmem : (⟨Severity.hard, Rule.monophonic, some t, none⟩ : Violation) ∈
      (validateVariant cons ⟨idv, tagsv, events⟩ ws we).violations :=
    List.mem_append_right _ hx
  have := hwb _ (hard_mem_of_violation hmem rfl)
  exact Rule.noConfusion this

/-- C10 (implicit).  When a nonempty event list's only hard violations
against its window are `window_bounds` violations, auto-correction applies
no clamp (the correction fold is the identity), and its re-validation —
run against the dilated window [min start_step, max start_step + 16] of the
original events, which contains every event's start by construction — can
never report a `window_bounds` violation; the events therefore re-validate
cleanly and are returned as "corrected" (merely regrouped by track by the
overlap pass, every returned event being one of the originals), to be
committed to the score outside their window. -/
theorem C10_dilated_revalidation (cons : Constraints) (idv : String) (tagsv : List String)
    (e0 : NoteEvent) (rest : List NoteEvent) (ws we : Int)
    (hwb : ∀ v ∈ (validateVariant cons ⟨idv, tagsv, e0 :: rest⟩ ws we).hardViolations,
      v.rule = Rule.windowBounds) :
    applyCorrections cons (e0 :: rest)
        (validateVariant cons ⟨idv, tagsv, e0 :: rest⟩ ws we) = e0 :: rest ∧
    autoCorrect cons (e0 :: rest) (validateVariant cons ⟨idv, tagsv, e0 :: rest⟩ ws we) =
      some (resolveOverlaps cons (e0 :: rest)) ∧
    (∀ x ∈ (validateVariant cons
        ⟨"corrected", ["auto_corrected"], resolveOverlaps cons (e0 :: rest)⟩
        (rest.foldl (fun m x => min m x.startStep) e0.startStep)
        (rest.foldl (fun m x => max m x.startStep) e0.startStep + 16)).violations,
      ¬ x.rule = Rule.windowBounds) ∧
    (∀ x ∈ resolveOverlaps cons (e0 :: rest), x ∈ e0 :: rest) := by
  have hpitch := wb_pitch_in_range hwb
  have hch := wb_chains hwb
  have hmemres : ∀ x ∈ resolveOverlaps cons (e0 :: rest), x ∈ e0 :: rest :=
    mem_resolveOverlaps_of_chain hch
  have hid : applyCorrections cons (e0 :: rest)
      (validateVariant cons ⟨idv, tagsv, e0 :: rest⟩ ws we) = e0 :: rest := by
    refine foldl_applyCorrection_id cons _ _ ?_
    intro v hv
    rw [hwb v hv]
    decide
  have hbounds : ∀ x ∈ resolveOverlaps cons (e0 :: rest),
      (rest.foldl (fun m x => min m x.startStep) e0.startStep) ≤ x.startStep ∧
      x.startStep <
        (rest.foldl (fun m x => max m x.startStep) e0.startStep + 16) := by
    intro x hx
    have hxm := hmemres x hx
    constructor
    · rcases List.mem_cons.mp hxm with rfl | hxm
      · exact (foldl_min_le_start rest x.startStep).1
      · exact (foldl_min_le_start rest e0.startStep).2 x hxm
    · have hle : x.startStep ≤ rest.foldl (fun m x => max m x.startStep) e0.startStep := by
        rcases List.mem_cons.mp hxm with rfl | hxm
        · exact (le_foldl_max_start rest x.startStep).1
        · exact (le_foldl_max_start rest e0.startStep).2 x hxm
      linarith
  have hchainsRes : ∀ t ∈ cons.hard.monophonicTracks,
      List.Chain' noOverlap
        (sortByStart ((resolveOverlaps cons (e0 :: rest)).filter (fun e => e.track = t))) := by
    intro t ht
    rw [resolveOverlaps_filter, if_pos ht, monoScan_of_chain (hch t ht), sortByStart_idem]
    exact hch t ht
  have hvalid : (validateVariant cons
      ⟨"corrected", ["auto_corrected"], resolveOverlaps cons (e0 :: rest)⟩
      (rest.foldl (fun m x => min m x.startStep) e0.startStep)
      (rest.foldl (fun m x => max m x.startStep) e0.startStep + 16)).isValid = true := by
    refine validateVariant_valid_of cons _ _ _ ?_ hchainsRes
    intro e he
    exact ⟨hbounds e he, fun pr hlk => hpitch e (hmemres e he) pr hlk⟩
  refine ⟨hid, ?_, ?_, hmemres⟩
  · have heq : autoCorrect cons (e0 :: rest)
        (validateVariant cons ⟨idv, tagsv, e0 :: rest⟩ ws we) =
        if (validateVariant cons
            ⟨"corrected", ["auto_corrected"],
              resolveOverlaps cons (applyCorrections cons (e0 :: rest)
                (validateVariant cons ⟨idv, tagsv, e0 :: rest⟩ ws we))⟩
            (rest.foldl (fun m x => min m x.startStep) e0.startStep)
            (rest.foldl (fun m x => max m x.startStep) e0.startStep + 16)).isValid = true
          then some (resolveOverlaps cons (applyCorrections cons (e0 :: rest)
            (validateVariant cons ⟨idv, tagsv, e0 :: rest⟩ ws we)))
          else none := rfl
    rw [heq, hid, if_pos hvalid]
  · intro x hx hrule
    rcases List.mem_append.mp hx with hx | hx
    · rcases eventsViolations_mem_source hx with ⟨i, e, he, hxe⟩
      rcases eventViolations_windowBounds hxe hrule with h | h
      · exact absurd (hbounds e he).1 (not_le.mpr h)
      · exact absurd (hbounds e he).2 (not_lt.mpr h)
    · exact Rule.noConfusion ((checkPolyphony_shape hx).2.symm.trans hrule)

/-- C10, witness at a concrete input: an event starting at step 100,
validated against window [0, 16), produces only a window-bounds hard
violation; auto-correction returns it unchanged. -/
theorem C10_witness :
    (∀ v ∈ (validateVariant Constraints.default8bit
        ⟨"v", [], exOutOfWindow⟩ 0 16).hardViolations,
      v.rule = Rule.windowBounds) ∧
    autoCorrect Constraints.default8bit exOutOfWindow
      (validateVariant Constraints.default8bit ⟨"v", [], exOutOfWindow⟩ 0 16) =
      some (resolveOverlaps Constraints.default8bit exOutOfWindow) := by
  have h := C10_dilated_revalidation Constraints.default8bit "v" []
    ⟨"pulse1", 60, 100, 100, 4⟩ [] 0 16 (by decide)
  exact ⟨by decide, h.2.1⟩

/-! Lemmas on the algorithmic fallback generator. -/

theorem melodyLoop_shape (w : MWindow) (scale : List Int) :
    ∀ (steps : List Int) (r r' : Rand),
      ((melodyLoop w scale steps r).1).map eventShape =
        ((melodyLoop w scale steps r').1).map eventShape := by
  intro steps
  induction steps with
  | nil => intro r r'; rfl
  | cons rel rest ih =>
    intro r r'
    by_cases h : w.endStep ≤ w.startStep + rel
    · simp only [melodyLoop, if_pos h]
    · simp only [melodyLoop, if_neg h, List.map_cons]
      exact congrArg₂ List.cons rfl (ih _ _)

theorem bassLoop_shape (w : MWindow) (scale : List Int) :
    ∀ (steps : List Int) (r r' : Rand),
      ((bassLoop w scale steps r).1).map eventShape =
        ((bassLoop w scale steps r').1).map eventShape := by
  intro steps
  induction steps with
  | nil => intro r r'; rfl
  | cons rel rest ih =>
    intro r r'
    by_cases h : w.endStep ≤ w.startStep + rel
    · simp only [bassLoop, if_pos h]
    · simp only [bassLoop, if_neg h, List.map_cons]
      exact congrArg₂ List.cons rfl (ih _ _)

theorem melodyLoop_track (w : MWindow) (scale : List Int) :
    ∀ (steps : List Int) (r : Rand), ∀ e ∈ (melodyLoop w scale steps r).1,
      e.track = "pulse1" := by
  intro steps
  induction steps with
  | nil => intro r e he; exact absurd he (List.not_mem_nil e)
  | cons rel rest ih =>
    intro r e he
    by_cases h : w.endStep ≤ w.startStep + rel
    · simp only [melodyLoop, if_pos h] at he
      exact absurd he (List.not_mem_nil e)
    · simp only [melodyLoop, if_neg h] at he
      rcases List.mem_cons.mp he with rfl | he
      · rfl
      · exact ih _ e he

theorem bassLoop_track (w : MWindow) (scale : List Int) :
    ∀ (steps : List Int) (r : Rand), ∀ e ∈ (bassLoop w scale steps r).1,
      e.track = "triangle" := by
  intro steps
  induction steps with
  | nil => intro r e he; exact absurd he (List.not_mem_nil e)
  | cons rel rest ih =>
    intro r e he
    by_cases h : w.endStep ≤ w.startStep + rel
    · simp only [bassLoop, if_pos h] at he
      exact absurd he (List.not_mem_nil e)
    · simp only [bassLoop, if_neg h] at he
      rcases List.mem_cons.mp he with rfl | he
      · rfl
      · exact ih _ e he

theorem mem_insertByStartVel {x e : NoteEvent} :
    ∀ {l : List NoteEvent}, x ∈ insertByStartVel e l ↔ x = e ∨ x ∈ l := by
  intro l
  induction l with
  | nil => simp [insertByStartVel]
  | cons a l ih =>
    by_cases h : drumBefore a e
    · simp only [insertByStartVel, if_pos h, List.mem_cons, ih]
      tauto
    · simp only [insertByStartVel, if_neg h, List.mem_cons]

theorem mem_sortByStartVel {x : NoteEvent} :
    ∀ {l : List NoteEvent}, x ∈ sortByStartVel l ↔ x ∈ l := by
  intro l
  induction l with
  | nil => simp [sortByStartVel]
  | cons a l ih =>
    show x ∈ insertByStartVel a (sortByStartVel l) ↔ _
    rw [mem_insertByStartVel, List.mem_cons, ih]

theorem keepScan_subset :
    ∀ (xs : List NoteEvent) (last : NoteEvent), ∀ e ∈ keepScan last xs, e ∈ xs := by
  intro xs
  induction xs with
  | nil => intro last e he; exact absurd he (List.not_mem_nil e)
  | cons x xs ih =>
    intro last e he
    show e ∈ x :: xs
    by_cases h : last.endStep ≤ x.startStep
    · rw [show keepScan last (x :: xs) = x :: keepScan x xs from by
        simp only [keepScan, if_pos h]] at he
      rcases List.mem_cons.mp he with rfl | he
      · exact List.mem_cons_self e xs
      · exact List.mem_cons_of_mem x (ih x e he)
    · rw [show keepScan last (x :: xs) = keepScan last xs from by
        simp only [keepScan, if_neg h]] at he
      exact List.mem_cons_of_mem x (ih last e he)

theorem removeOverlapsKeepFirst_subset (events : List NoteEvent) :
    ∀ e ∈ removeOverlapsKeepFirst events, e ∈ events := by
  intro e he
  unfold removeOverlapsKeepFirst at he
  rcases hs : sortByStartVel events with _ | ⟨a, as⟩ <;> rw [hs] at he
  · exact absurd he (List.not_mem_nil e)
  · have hmem : e ∈ a :: as := by
      rcases List.mem_cons.mp he with rfl | he
      · exact List.mem_cons_self e as
      · exact List.mem_cons_of_mem a (keepScan_subset as a e he)
    rw [← hs] at hmem
    exact mem_sortByStartVel.mp hmem

theorem keepScan_chain :
    ∀ (xs : List NoteEvent) (last : NoteEvent), List.Chain noOverlap last (keepScan last xs) := by
  intro xs
  induction xs with
  | nil => intro last; exact List.Chain.nil
  | cons x xs ih =>
    intro last
    by_cases h : last.endStep ≤ x.startStep
    · rw [show keepScan last (x :: xs) = x :: keepScan x xs from by
        simp only [keepScan, if_pos h]]
      exact List.Chain.cons h (ih x)
    · rw [show keepScan last (x :: xs) = keepScan last xs from by
        simp only [keepScan, if_neg h]]
      exact ih last

theorem removeOverlapsKeepFirst_chain (events : List NoteEvent) :
    List.Chain' noOverlap (removeOverlapsKeepFirst events) := by
  unfold removeOverlapsKeepFirst
  rcases hs : sortByStartVel events with _ | ⟨a, as⟩
  · exact trivial
  · exact keepScan_chain as a

theorem generateDrums_track (w : MWindow) (vi : Nat) :
    ∀ e ∈ generateDrums w vi, e.track = "noise" := by
  intro e he
  have hmem := removeOverlapsKeepFirst_subset _ e he
  simp only [List.mem_append] at hmem
  rcases hmem with (hm | hm) | hm
  · rcases List.mem_map.mp hm with ⟨rel, _, rfl⟩
    rfl
  · rcases List.mem_map.mp hm with ⟨rel, _, rfl⟩
    rfl
  · by_cases hv : 0 < vi
    · rw [if_pos hv] at hm
      rcases List.mem_map.mp hm with ⟨rel, _, rfl⟩
      rfl
    · rw [if_neg hv] at hm
      exact absurd hm (List.not_mem_nil e)

theorem generateDrums_chain (w : MWindow) (vi : Nat) :
    List.Chain' noOverlap (generateDrums w vi) :=
  removeOverlapsKeepFirst_chain _

/-- C7, counterexample.  The claim states the fallback generator runs the
monophony-overlap trim on the concatenated per-track events, so that each
returned variant has no overlapping events on any monophonic track.  For
variant index 1 the melody uses the eighth-note grid with durations up to 4
steps, so consecutive `pulse1` events overlap in the returned variant —
`pulse1` is monophonic — refuting the claim. -/
theorem C7_counterexample :
    "pulse1" ∈ Constraints.default8bit.hard.monophonicTracks ∧
    ¬ List.Chain' noOverlap (sortByStart
      (((composeAlgorithmic "C" ⟨0, 0, 16⟩ 1 exRand0).1.events).filter
        (fun e => e.track = "pulse1"))) :=
  ⟨by decide, by decide⟩

/-- C7, amended.  The fallback composer concatenates the melody, bass and
drum events without any trim of the concatenation; the overlap trim is
applied only inside the drum generator (`_remove_overlaps`), and it is a
keep-first trim — later overlapping events are dropped, not shortened.
Consequently only the `noise` (drum) events of a returned variant are
guaranteed non-overlapping: the variant's `noise` events are exactly the
drum generator's output and form a non-overlapping chain, while melody and
bass events are returned untrimmed and may overlap on their monophonic
tracks (see the counterexample). -/
theorem C7_fallback_trim_amended (key : String) (w : MWindow) (vi : Nat) (r : Rand) :
    (composeAlgorithmic key w vi r).1.events =
      (generateMelody w
        ((SCALES.lookup key).getD ((SCALES.lookup "C_penta").getD [0, 2, 4, 7, 9])) vi r).1 ++
      (generateBass w
        ((SCALES.lookup key).getD ((SCALES.lookup "C_penta").getD [0, 2, 4, 7, 9])) vi
        (generateMelody w
          ((SCALES.lookup key).getD ((SCALES.lookup "C_penta").getD [0, 2, 4, 7, 9])) vi r).2).1 ++
      generateDrums w vi ∧
    ((composeAlgorithmic key w vi r).1.events).filter (fun e => e.track = "noise") =
      generateDrums w vi ∧
    List.Chain' noOverlap (generateDrums w vi) := by
  refine ⟨rfl, ?_, generateDrums_chain w vi⟩
  have hm : ∀ e ∈ (generateMelody w
      ((SCALES.lookup key).getD ((SCALES.lookup "C_penta").getD [0, 2, 4, 7, 9])) vi r).1,
      e.track = "pulse1" := fun e he => melodyLoop_track w _ _ r e he
  have hb : ∀ e ∈ (generateBass w
      ((SCALES.lookup key).getD ((SCALES.lookup "C_penta").getD [0, 2, 4, 7, 9])) vi
      (generateMelody w
        ((SCALES.lookup key).getD ((SCALES.lookup "C_penta").getD [0, 2, 4, 7, 9])) vi r).2).1,
      e.track = "triangle" := fun e he => bassLoop_track w _ _ _ e he
  have hev : (composeAlgorithmic key w vi r).1.events =
      (generateMelody w
        ((SCALES.lookup key).getD ((SCALES.lookup "C_penta").getD [0, 2, 4, 7, 9])) vi r).1 ++
      (generateBass w
        ((SCALES.lookup key).getD ((SCALES.lookup "C_penta").getD [0, 2, 4, 7, 9])) vi
        (generateMelody w
          ((SCALES.lookup key).getD ((SCALES.lookup "C_penta").getD [0, 2, 4, 7, 9])) vi r).2).1 ++
      generateDrums w vi := rfl
  rw [hev, List.filter_append, List.filter_append]
  have h1 : (generateMelody w
      ((SCALES.lookup key).getD ((SCALES.lookup "C_penta").getD [0, 2, 4, 7, 9])) vi r).1.filter
      (fun e => e.track = "noise") = [] := by
    rw [List.filter_eq_nil_iff]
    intro e he
    simp [hm e he]
  have h2 : (generateBass w
      ((SCALES.lookup key).getD ((SCALES.lookup "C_penta").getD [0, 2, 4, 7, 9])) vi
      (generateMelody w
        ((SCALES.lookup key).getD ((SCALES.lookup "C_penta").getD [0, 2, 4, 7, 9])) vi r).2).1.filter
      (fun e => e.track = "noise") = [] := by
    rw [List.filter_eq_nil_iff]
    intro e he
    simp [hb e he]
  have h3 : (generateDrums w vi).filter (fun e => e.track = "noise") = generateDrums w vi := by
    rw [List.filter_eq_self]
    intro e he
    exact decide_eq_true (generateDrums_track w vi e he)
  rw [h1, h2, h3]
  rfl

/-- C8, counterexample.  The claim states fallback generation is
deterministic given a variant index, with no hidden mutable state beyond an
explicit random source seeded per call.  The code draws from the
process-wide unseeded `random` source: two runs with the same inputs but
different random states (here the constant-0 and constant-1 draw streams)
produce different variants. -/
theorem C8_counterexample :
    (composeAlgorithmic "C" ⟨0, 0, 16⟩ 0 exRand0).1 ≠
      (composeAlgorithmic "C" ⟨0, 0, 16⟩ 0 exRand1).1 := by
  decide

theorem composeAlgorithmic_shape_aux (w : MWindow) (scale : List Int) (vi : Nat)
    (r r' : Rand) :
    (((generateMelody w scale vi r).1 ++
        (generateBass w scale vi (generateMelody w scale vi r).2).1 ++
        generateDrums w vi).map eventShape) =
    (((generateMelody w scale vi r').1 ++
        (generateBass w scale vi (generateMelody w scale vi r').2).1 ++
        generateDrums w vi).map eventShape) := by
  simp only [List.map_append]
  exact congrArg₂ (fun a b => a ++ b)
    (congrArg₂ (fun a b => a ++ b)
      (melodyLoop_shape w scale _ r r')
      (bassLoop_shape w scale _ _ _))
    rfl

/-- C8, amended.  The fallback generator reads the process-wide unseeded
random source (modelled as an explicit stream of draws), so full variants
are deterministic only given the random state as an additional input.  What
is deterministic given (score key, window, variant index) alone is the
event shape: for any two random states, the two runs produce event lists
that agree on every event's track, start step and duration — only pitches
and melody velocities depend on the random draws. -/
theorem C8_shape_deterministic (key : String) (w : MWindow) (vi : Nat) (r r' : Rand) :
    ((composeAlgorithmic key w vi r).1.events).map eventShape =
      ((composeAlgorithmic key w vi r').1.events).map eventShape :=
  composeAlgorithmic_shape_aux w
    ((SCALES.lookup key).getD ((SCALES.lookup "C_penta").getD [0, 2, 4, 7, 9])) vi r r'

end Nado
